import Mathlib

/-!
Verification of the bedrock-vscode-chat adapter core against its design
specification. The development shallowly embeds the TypeScript sources:
JSON values become an inductive type, the stateful tool-call buffer
becomes explicit state passing, and fallible code returns `Except`/`Option`.
The JavaScript builtins `JSON.parse` and `JSON.stringify`, which the
sources call, are modelled by an executable recursive-descent parser and
serializer over the same JSON type (numbers restricted to integers; the
sources never compute with JSON numbers, they only carry them).
-/

namespace BedrockChat

/-- Model of a JavaScript JSON value. JS numbers are modelled as integers
(the sources never perform arithmetic on JSON numbers, they only carry
them); object fields keep insertion order, mirroring JS object semantics. -/
inductive JSON where
  | null : JSON
  | bool (b : Bool) : JSON
  | num (n : Int) : JSON
  | str (s : String) : JSON
  | arr (elems : List JSON) : JSON
  | obj (fields : List (String × JSON)) : JSON

/-- First value bound to key `k`, mirroring a JS property read. -/
def getKey (fs : List (String × JSON)) (k : String) : Option JSON :=
  match fs with
  | [] => none
  | (k', v) :: rest => if k' = k then some v else getKey rest k

/-- JS property assignment `o[k] = v`: overwrite the first occurrence in
place, or append when the key is absent. -/
def setKey (fs : List (String × JSON)) (k : String) (v : JSON) :
    List (String × JSON) :=
  match fs with
  | [] => [(k, v)]
  | (k', v') :: rest =>
    if k' = k then (k', v) :: rest else (k', v') :: setKey rest k v

/-- JS `delete o[k]`: remove the binding for `k` (the first occurrence). -/
def deleteKey (fs : List (String × JSON)) (k : String) :
    List (String × JSON) :=
  match fs with
  | [] => []
  | (k', v') :: rest =>
    if k' = k then rest else (k', v') :: deleteKey rest k

/-! ## Model of the JavaScript `JSON.parse` builtin

`tryParseJSONObject` in `converters/schema.ts` and the tool-result
formatting in `converters/messages.ts` rely on `JSON.parse`. The builtin
is modelled by a fuel-indexed recursive-descent parser returning the value
and the unconsumed remainder. Deviations from ECMA-404, recorded here
once: numbers are optionally signed integer literals (no fraction or
exponent, leading zeros tolerated), `\u` escapes outside the valid scalar
range collapse through `Char.ofNat`, and unescaped control characters
inside strings are tolerated. -/

/-- JSON insignificant whitespace. -/
def isJsonWs (c : Char) : Bool := c = ' ' || c = '\t' || c = '\n' || c = '\r'

/-- Drop leading JSON whitespace. -/
def skipWs (cs : List Char) : List Char := cs.dropWhile isJsonWs

/-- Single-character string escapes accepted by `JSON.parse`. -/
def escChar (c : Char) : Option Char :=
  if c = '"' then some '"'
  else if c = '\\' then some '\\'
  else if c = '/' then some '/'
  else if c = 'b' then some (Char.ofNat 8)
  else if c = 'f' then some (Char.ofNat 12)
  else if c = 'n' then some '\n'
  else if c = 'r' then some '\r'
  else if c = 't' then some '\t'
  else none

/-- Value of a hexadecimal digit. -/
def hexVal (c : Char) : Option Nat :=
  if '0' ≤ c ∧ c ≤ '9' then some (c.toNat - '0'.toNat)
  else if 'a' ≤ c ∧ c ≤ 'f' then some (c.toNat - 'a'.toNat + 10)
  else if 'A' ≤ c ∧ c ≤ 'F' then some (c.toNat - 'A'.toNat + 10)
  else none

/-- Parse the body of a JSON string literal (after the opening quote),
returning the decoded characters and the input remaining after the
closing quote. -/
def parseStringBody : List Char → Option (List Char × List Char)
  | [] => none
  | c :: rest =>
    if c = '"' then some ([], rest)
    else if c = '\\' then
      match rest with
      | [] => none
      | e :: rest' =>
        if e = 'u' then
          match rest' with
          | h1 :: h2 :: h3 :: h4 :: rest'' =>
            match hexVal h1, hexVal h2, hexVal h3, hexVal h4 with
            | some a, some b, some c2, some d =>
              match parseStringBody rest'' with
              | some (s, r) =>
                some (Char.ofNat (((a * 16 + b) * 16 + c2) * 16 + d) :: s, r)
              | none => none
            | _, _, _, _ => none
          | _ => none
        else
          match escChar e with
          | some ec =>
            match parseStringBody rest' with
            | some (s, r) => some (ec :: s, r)
            | none => none
          | none => none
    else
      match parseStringBody rest with
      | some (s, r) => some (c :: s, r)
      | none => none

/-- Numeric value of a list of decimal digits. -/
def digitsToNat (ds : List Char) : Nat :=
  ds.foldl (fun acc c => acc * 10 + (c.toNat - '0'.toNat)) 0

/-- Parse a JSON number (model restriction: optionally signed integer). -/
def parseNumberBody (cs : List Char) : Option (Int × List Char) :=
  match cs with
  | '-' :: rest =>
    let ds := rest.takeWhile Char.isDigit
    if ds.isEmpty then none
    else some (-(Int.ofNat (digitsToNat ds)), rest.dropWhile Char.isDigit)
  | _ =>
    let ds := cs.takeWhile Char.isDigit
    if ds.isEmpty then none
    else some (Int.ofNat (digitsToNat ds), cs.dropWhile Char.isDigit)

mutual

/-- Parse one JSON value (leading whitespace allowed), returning it with
the unconsumed remainder. `fuel` bounds the recursion depth. -/
def parseValue : Nat → List Char → Option (JSON × List Char)
  | 0, _ => none
  | fuel + 1, cs =>
    match skipWs cs with
    | '{' :: rest => parseObjectBody fuel rest
    | '[' :: rest => parseArrayBody fuel rest
    | '"' :: rest =>
      match parseStringBody rest with
      | some (s, r) => some (JSON.str (String.mk s), r)
      | none => none
    | 't' :: 'r' :: 'u' :: 'e' :: r => some (JSON.bool true, r)
    | 'f' :: 'a' :: 'l' :: 's' :: 'e' :: r => some (JSON.bool false, r)
    | 'n' :: 'u' :: 'l' :: 'l' :: r => some (JSON.null, r)
    | cs' =>
      match parseNumberBody cs' with
      | some (n, r) => some (JSON.num n, r)
      | none => none

/-- Parse the remainder of an object after its opening brace. -/
def parseObjectBody : Nat → List Char → Option (JSON × List Char)
  | 0, _ => none
  | fuel + 1, cs =>
    match skipWs cs with
    | '}' :: rest => some (JSON.obj [], rest)
    | '"' :: rest =>
      match parseStringBody rest with
      | some (k, r1) => parseMembers fuel [] (String.mk k) r1
      | none => none
    | _ => none

/-- Having read a member key, parse `: value` and the following members.
`acc` holds the fields read so far; a repeated key overwrites the earlier
value in place, as for JS `JSON.parse`. -/
def parseMembers :
    Nat → List (String × JSON) → String → List Char → Option (JSON × List Char)
  | 0, _, _, _ => none
  | fuel + 1, acc, key, cs =>
    match skipWs cs with
    | ':' :: rest =>
      match parseValue fuel rest with
      | some (v, r1) =>
        match skipWs r1 with
        | ',' :: r2 =>
          match skipWs r2 with
          | '"' :: r3 =>
            match parseStringBody r3 with
            | some (k2, r4) => parseMembers fuel (setKey acc key v) (String.mk k2) r4
            | none => none
          | _ => none
        | '}' :: r2 => some (JSON.obj (setKey acc key v), r2)
        | _ => none
      | none => none
    | _ => none

/-- Parse the remainder of an array after its opening bracket. -/
def parseArrayBody : Nat → List Char → Option (JSON × List Char)
  | 0, _ => none
  | fuel + 1, cs =>
    match skipWs cs with
    | ']' :: rest => some (JSON.arr [], rest)
    | _ => parseElems fuel [] cs

/-- Parse the elements of a non-empty array. -/
def parseElems : Nat → List JSON → List Char → Option (JSON × List Char)
  | 0, _, _ => none
  | fuel + 1, acc, cs =>
    match parseValue fuel cs with
    | some (v, r1) =>
      match skipWs r1 with
      | ',' :: r2 => parseElems fuel (acc ++ [v]) r2
      | ']' :: r2 => some (JSON.arr (acc ++ [v]), r2)
      | _ => none
    | none => none

end

/-- Model of JavaScript `JSON.parse`: parse one value and require the rest
of the input to be whitespace. The fuel `3 * (length + 1)` dominates the
recursion depth of any input of this length. -/
def jsonParse (s : String) : Option JSON :=
  match parseValue (3 * (s.length + 1)) s.data with
  | some (v, rest) => if (skipWs rest).isEmpty then some v else none
  | none => none

/-! ## Model of the JavaScript `JSON.stringify` builtin -/

/-- Lowercase hexadecimal digit. -/
def hexDigit (n : Nat) : Char :=
  if n < 10 then Char.ofNat ('0'.toNat + n) else Char.ofNat ('a'.toNat + n - 10)

/-- Four-digit hexadecimal rendering used by `\u` escapes. -/
def toHex4 (n : Nat) : List Char :=
  [hexDigit (n / 4096 % 16), hexDigit (n / 256 % 16),
   hexDigit (n / 16 % 16), hexDigit (n % 16)]

/-- Escape one character as `JSON.stringify` does for string contents. -/
def escapeJsonChar (c : Char) : List Char :=
  if c = '"' then ['\\', '"']
  else if c = '\\' then ['\\', '\\']
  else if c = '\n' then ['\\', 'n']
  else if c = '\r' then ['\\', 'r']
  else if c = '\t' then ['\\', 't']
  else if c = Char.ofNat 8 then ['\\', 'b']
  else if c = Char.ofNat 12 then ['\\', 'f']
  else if c.toNat < 32 then '\\' :: 'u' :: toHex4 c.toNat
  else [c]

/-- Render a string as a quoted, escaped JSON string literal. -/
def quoteString (s : String) : String :=
  String.mk ('"' :: (s.data.map escapeJsonChar).flatten ++ ['"'])

mutual

/-- Model of JavaScript `JSON.stringify` on JSON values (no indentation,
as the sources call it). -/
def stringify : JSON → String
  | .null => "null"
  | .bool true => "true"
  | .bool false => "false"
  | .num n => toString n
  | .str s => quoteString s
  | .arr xs => "[" ++ stringifyElems xs ++ "]"
  | .obj fs => "\x7b" ++ stringifyFields fs ++ "\x7d"

def stringifyElems : List JSON → String
  | [] => ""
  | [x] => stringify x
  | x :: xs => stringify x ++ "," ++ stringifyElems xs

def stringifyFields : List (String × JSON) → String
  | [] => ""
  | [(k, v)] => quoteString k ++ ":" ++ stringify v
  | (k, v) :: fs => quoteString k ++ ":" ++ stringify v ++ "," ++ stringifyFields fs

end

/-- Model of `tryParseJSONObject` (`converters/schema.ts`): the guard
`!text || !/[\x7b]/.test(text)` rejects empty text or text without an
opening brace; then `JSON.parse` must yield an object (not `null`, an
array or a scalar). Returns the object fields on success. -/
def tryParseJSONObject (text : String) : Option (List (String × JSON)) :=
  if text = "" || !(text.data.contains '{') then none
  else
    match jsonParse text with
    | some (JSON.obj fs) => some fs
    | _ => none

/-! ## Schema sanitization (`converters/schema.ts`) -/

/-- The fixed marker list of `isIntegerLikePropertyName`. -/
def integerMarkers : List String :=
  ["id", "limit", "count", "index", "size", "offset", "length",
   "results_limit", "maxresults", "debugsessionid", "cellid"]

/-- Substring test, modelling JS `String.prototype.includes`. -/
def strIncludes (s sub : String) : Bool :=
  decide (List.IsInfix sub.data s.data)

/-- Model of `isIntegerLikePropertyName`; the `!propertyName` guard
covers both an absent and an empty name. -/
def isIntegerLikePropertyName (propName : Option String) : Bool :=
  match propName with
  | none => false
  | some p =>
    if p = "" then false
    else
      let lowered := p.toLower
      integerMarkers.any (fun m => strIncludes lowered m) || lowered.endsWith "_id"

/-- The keyword allow-list of `pruneUnknownSchemaKeywords`. -/
def schemaAllowKeys : List String :=
  ["type", "properties", "required", "additionalProperties", "description",
   "enum", "default", "items", "minLength", "maxLength", "minimum",
   "maximum", "pattern", "format"]

/-- `pruneUnknownSchemaKeywords` on an object's fields: keep allow-listed
keys, in order. (Its non-object branch is unreachable from
`sanitizeSchema`, which only passes it objects.) -/
def pruneFields (fs : List (String × JSON)) : List (String × JSON) :=
  fs.filter (fun kv => schemaAllowKeys.contains kv.1)

/-- The branch array of the first of `anyOf`/`oneOf`/`allOf` (checked in
that order) bound to a non-empty array, if any. -/
def compositeBranch (fs : List (String × JSON)) : Option (List JSON) :=
  match getKey fs "anyOf" with
  | some (JSON.arr (b :: bs)) => some (b :: bs)
  | _ =>
    match getKey fs "oneOf" with
    | some (JSON.arr (b :: bs)) => some (b :: bs)
    | _ =>
      match getKey fs "allOf" with
      | some (JSON.arr (b :: bs)) => some (b :: bs)
      | _ => none

/-- The test `b && typeof b === "object" && b.type === "string"` (an array
`b` has no `type` property, so only plain objects can pass). -/
def isStringTypedBranch (j : JSON) : Bool :=
  match j with
  | JSON.obj bf =>
    match getKey bf "type" with
    | some (JSON.str s) => s = "string"
    | _ => false
  | _ => false

/-- The preferred branch: first `type:"string"` branch, else the first. -/
def pickBranch (b0 : JSON) (bs : List JSON) : JSON :=
  match (b0 :: bs).find? isStringTypedBranch with
  | some b => b
  | none => b0

/-- JS object spread `{...b}` of a branch, as seen after the immediately
following keyword prune: a plain object contributes its fields; arrays,
strings and primitives contribute only numeric-string keys or nothing,
none of which survive `pruneUnknownSchemaKeywords`, so they are modelled
as empty directly. -/
def spreadFields (j : JSON) : List (String × JSON) :=
  match j with
  | JSON.obj bf => bf
  | _ => []

/-- Schema fields after composite replacement and keyword pruning. -/
def schemaBaseFields (fs0 : List (String × JSON)) : List (String × JSON) :=
  pruneFields
    (match compositeBranch fs0 with
     | some (b :: bs) => spreadFields (pickBranch b bs)
     | _ => fs0)

/-- JS `x == null` on a property read. -/
def isNullish : Option JSON → Bool
  | none => true
  | some JSON.null => true
  | _ => false

/-- Whether the JS variable `t` is the given type-name string. -/
def isTypeTag (t : Option JSON) (s : String) : Bool :=
  match t with
  | some (JSON.str s') => s' = s
  | _ => false

/-- Schema fields after composite replacement, pruning, `type` defaulting
and the heuristic integer coercion, paired with the final value of the JS
variable `t` (as a JSON value). -/
def schemaHead (fs0 : List (String × JSON)) (propName : Option String) :
    List (String × JSON) × Option JSON :=
  if isNullish (getKey (schemaBaseFields fs0) "type") then
    -- a defaulted `type` is `"object"`, to which the coercion of
    -- `"number"`-typed integer-like properties cannot apply
    (setKey (schemaBaseFields fs0) "type" (JSON.str "object"),
     some (JSON.str "object"))
  else if isTypeTag (getKey (schemaBaseFields fs0) "type") "number"
      && isIntegerLikePropertyName propName then
    (setKey (schemaBaseFields fs0) "type" (JSON.str "integer"),
     some (JSON.str "integer"))
  else (schemaBaseFields fs0, getKey (schemaBaseFields fs0) "type")

/-- `Object.entries((schema.properties) ?? {})`, guarded by the source's
`props && typeof props === "object"` truthiness test: a plain object
yields its fields, an array its index-keyed elements, anything else
nothing. -/
def propsEntries (fs : List (String × JSON)) : List (String × JSON) :=
  match getKey fs "properties" with
  | some (JSON.obj pf) => pf
  | some (JSON.arr xs) =>
    ((List.range xs.length).zip xs).map (fun p => (toString p.1, p.2))
  | _ => []

/-- The `required` handling: an array keeps its string entries, any other
present value becomes `[]`, an absent key stays absent. -/
def requiredStep (fs : List (String × JSON)) : List (String × JSON) :=
  match getKey fs "required" with
  | some (JSON.arr xs) =>
    setKey fs "required"
      (JSON.arr (xs.filter (fun x => match x with | JSON.str _ => true | _ => false)))
  | some _ => setKey fs "required" (JSON.arr [])
  | none => fs

/-- The `additionalProperties` handling: delete a present non-boolean. -/
def additionalPropertiesStep (fs : List (String × JSON)) : List (String × JSON) :=
  match getKey fs "additionalProperties" with
  | some (JSON.bool _) => fs
  | some _ => deleteKey fs "additionalProperties"
  | none => fs

theorem sizeOf_snd_lt_of_mem {kv : String × JSON} {fs : List (String × JSON)}
    (h : kv ∈ fs) : sizeOf kv.2 < 1 + sizeOf fs := by
  have h1 : sizeOf kv < sizeOf fs := List.sizeOf_lt_of_mem h
  obtain ⟨k, v⟩ := kv
  simp at h1 ⊢
  omega

theorem sizeOf_elem_lt_of_mem {x : JSON} {xs : List JSON} (h : x ∈ xs) :
    sizeOf x < sizeOf (JSON.arr xs) := by
  have h1 : sizeOf x < sizeOf xs := List.sizeOf_lt_of_mem h
  simp
  omega

theorem getKey_mem {fs : List (String × JSON)} {k : String} {v : JSON}
    (h : getKey fs k = some v) : (k, v) ∈ fs := by
  induction fs with
  | nil => simp [getKey] at h
  | cons hd tl ih =>
    obtain ⟨k', v'⟩ := hd
    by_cases hk : k' = k
    · simp [getKey, hk] at h
      simp [hk, h]
    · simp [getKey, hk] at h
      exact List.mem_cons_of_mem _ (ih h)

theorem mem_pruneFields {kv : String × JSON} {fs : List (String × JSON)}
    (h : kv ∈ pruneFields fs) : kv ∈ fs :=
  List.mem_of_mem_filter h

theorem compositeBranch_getKey {fs : List (String × JSON)} {bs : List JSON}
    (h : compositeBranch fs = some bs) :
    ∃ c, getKey fs c = some (JSON.arr bs) := by
  unfold compositeBranch at h
  split at h
  · rename_i heq
    injection h with h'
    exact ⟨"anyOf", by rw [heq, h']⟩
  · split at h
    · rename_i heq
      injection h with h'
      exact ⟨"oneOf", by rw [heq, h']⟩
    · split at h
      · rename_i heq
        injection h with h'
        exact ⟨"allOf", by rw [heq, h']⟩
      · exact absurd h (by simp)

theorem pickBranch_mem (b0 : JSON) (bs : List JSON) :
    pickBranch b0 bs ∈ b0 :: bs := by
  unfold pickBranch
  split
  · rename_i heq
    exact List.mem_of_find?_eq_some heq
  · exact List.mem_cons_self _ _

theorem mem_spreadFields_size {kv : String × JSON} {j : JSON}
    (h : kv ∈ spreadFields j) : sizeOf kv.2 < sizeOf j := by
  unfold spreadFields at h
  split at h
  · rename_i bf
    have := sizeOf_snd_lt_of_mem h
    simp
    omega
  · simp at h

theorem mem_schemaBaseFields_size {kv : String × JSON}
    {fs0 : List (String × JSON)} (h : kv ∈ schemaBaseFields fs0) :
    sizeOf kv.2 < 1 + sizeOf fs0 := by
  unfold schemaBaseFields at h
  have h' := mem_pruneFields h
  clear h
  split at h'
  · rename_i b bs heq
    obtain ⟨c, hc⟩ := compositeBranch_getKey heq
    have h1 : sizeOf kv.2 < sizeOf (pickBranch b bs) := mem_spreadFields_size h'
    have h2 : sizeOf (pickBranch b bs) < sizeOf (b :: bs) :=
      List.sizeOf_lt_of_mem (pickBranch_mem b bs)
    have h3 := sizeOf_snd_lt_of_mem (getKey_mem hc)
    simp at h2 h3
    omega
  · exact sizeOf_snd_lt_of_mem h'

theorem getKey_setKey_ne (fs : List (String × JSON)) (k k' : String)
    (v : JSON) (h : k' ≠ k) : getKey (setKey fs k v) k' = getKey fs k' := by
  induction fs with
  | nil => simp [setKey, getKey, Ne.symm h]
  | cons hd tl ih =>
    obtain ⟨k0, v0⟩ := hd
    by_cases h0 : k0 = k
    · subst h0
      simp [setKey, getKey, Ne.symm h]
    · by_cases h1 : k0 = k'
      · subst h1
        simp [setKey, getKey, h0, h]
      · simp [setKey, getKey, h0, h1, ih]

theorem schemaHead_getKey_ne (fs0 : List (String × JSON))
    (pn : Option String) (k : String) (h : k ≠ "type") :
    getKey (schemaHead fs0 pn).1 k = getKey (schemaBaseFields fs0) k := by
  unfold schemaHead
  split_ifs <;> simp [getKey_setKey_ne _ _ _ _ h]

theorem schemaHead_val_size {fs0 : List (String × JSON)} {pn : Option String}
    {k : String} {v : JSON} (hk : k ≠ "type")
    (h : getKey (schemaHead fs0 pn).1 k = some v) : sizeOf v < 1 + sizeOf fs0 := by
  rw [schemaHead_getKey_ne _ _ _ hk] at h
  have := mem_schemaBaseFields_size (getKey_mem h)
  exact this

theorem propsEntries_size {kv : String × JSON} {fs0 : List (String × JSON)}
    {pn : Option String} (h : kv ∈ propsEntries (schemaHead fs0 pn).1) :
    sizeOf kv.2 < 1 + sizeOf fs0 := by
  unfold propsEntries at h
  split at h
  · rename_i pf heq
    have h1 := schemaHead_val_size (by decide) heq
    have h2 := sizeOf_snd_lt_of_mem h
    simp at h1
    omega
  · rename_i xs heq
    have h1 := schemaHead_val_size (by decide) heq
    simp only [List.mem_map] at h
    obtain ⟨p, hp, hkv⟩ := h
    have h2 : p.2 ∈ xs := (List.of_mem_zip hp).2
    have h3 := List.sizeOf_lt_of_mem h2
    have : sizeOf kv.2 = sizeOf p.2 := by rw [← hkv]
    simp at h1
    omega
  · simp at h

theorem itemsVal_size {fs0 : List (String × JSON)} {pn : Option String}
    {v : JSON} (h : getKey (schemaHead fs0 pn).1 "items" = some v) :
    sizeOf v < 1 + sizeOf fs0 :=
  schemaHead_val_size (by decide) h

/-- Model of `sanitizeSchema`. Non-object input (the `!input || typeof
input !== "object" || Array.isArray(input)` guard) degrades to the default
schema; otherwise the composite/prune/type steps of `schemaHead` run,
then the `object` branch recursively sanitizes every property (passing
the property key as its name hint) and normalizes `required` and
`additionalProperties`, and the `array` branch sanitizes `items` (tuple
arrays keep only their first element, non-objects default to
`{type:"string"}`). -/
def sanitizeSchema (input : JSON) (propName : Option String) : JSON :=
  match input with
  | JSON.obj fs0 =>
    let ht := schemaHead fs0 propName
    if isTypeTag ht.2 "object" then
      let entries := propsEntries ht.1
      let newProps := entries.attach.foldl
        (fun acc kv => setKey acc kv.1.1 (sanitizeSchema kv.1.2 (some kv.1.1))) []
      JSON.obj (additionalPropertiesStep (requiredStep
        (setKey ht.1 "properties" (JSON.obj newProps))))
    else if isTypeTag ht.2 "array" then
      match hit : getKey ht.1 "items" with
      | some (JSON.arr (x :: _)) =>
        JSON.obj (setKey ht.1 "items" (sanitizeSchema x none))
      | some (JSON.arr []) =>
        -- `sanitizeSchema (JSON.arr []) none` hits the non-object guard;
        -- its value, the default schema, is inlined here so that the
        -- recursion measure need not inspect this dead-weight call.
        JSON.obj (setKey ht.1 "items"
          (JSON.obj [("type", JSON.str "object"), ("properties", JSON.obj [])]))
      | some (JSON.obj g) =>
        JSON.obj (setKey ht.1 "items" (sanitizeSchema (JSON.obj g) none))
      | _ =>
        JSON.obj (setKey ht.1 "items" (JSON.obj [("type", JSON.str "string")]))
    else JSON.obj ht.1
  | _ => JSON.obj [("type", JSON.str "object"), ("properties", JSON.obj [])]
termination_by sizeOf input
decreasing_by
  · have h := propsEntries_size kv.2
    simp only [JSON.obj.sizeOf_spec]
    omega
  · rename_i tl
    have h := itemsVal_size hit
    have h2 : sizeOf x < sizeOf (JSON.arr (x :: tl)) :=
      sizeOf_elem_lt_of_mem (List.mem_cons_self _ _)
    simp only [JSON.obj.sizeOf_spec]
    omega
  · have h := itemsVal_size hit
    simp only [JSON.obj.sizeOf_spec] at h ⊢
    omega

/-! ## Function-name sanitization (`converters/schema.ts`) -/

/-- Characters of the class `[a-zA-Z0-9_-]`. -/
def isFnNameChar (c : Char) : Bool :=
  c.isAlpha || c.isDigit || c = '_' || c = '-'

/-- Test for the regex `/^[a-zA-Z]/`. -/
def startsWithAsciiLetter (s : String) : Bool :=
  match s.data with
  | [] => false
  | c :: _ => c.isAlpha

/-- Model of `.replace(/_+/g, "_")`: each maximal run of underscores
collapses to a single underscore. -/
def collapseUnderscores : List Char → List Char
  | [] => []
  | c :: rest =>
    match collapseUnderscores rest with
    | [] => [c]
    | d :: ds => if c = '_' && d = '_' then d :: ds else c :: d :: ds

/-- Model of `sanitizeFunctionName`. The `typeof name !== "string"` guard
of the source is unrepresentable in this typed embedding; the remaining
falsy string is `""`. The source REPLACES characters outside
`[a-zA-Z0-9_-]` with underscores (`replace(/[^a-zA-Z0-9_-]/g, "_")`), then
conditionally adds the `tool_` marker at the front, collapses underscore
runs and truncates to 64 characters (`slice(0, 64)`). -/
def sanitizeFunctionName (name : String) : String :=
  if name = "" then "tool"
  else
    let replaced := name.data.map (fun c => if isFnNameChar c then c else '_')
    let withHead :=
      if startsWithAsciiLetter (String.mk replaced) then replaced
      else "tool_".data ++ replaced
    String.mk ((collapseUnderscores withHead).take 64)

/-! ## Tool-call buffer (`tool-buffer.ts`) -/

/-- Per-index buffer entry (`ToolCallBuffer` in `types.ts`). -/
structure ToolCallBuffer where
  id : Option String
  name : Option String
  args : String

/-- A `LanguageModelToolCallPart` reported to the progress sink. -/
structure ToolCallPart where
  callId : String
  name : String
  parameters : List (String × JSON)

/-- State of a `ToolCallBufferManager`; `buffers` models the JS `Map` in
insertion order, keyed by content-block index. -/
structure BufferState where
  buffers : List (Nat × ToolCallBuffer)
  completedIndices : List Nat
  emittedToolCallKeys : List String
  hasText : Bool
  firstTool : Bool

/-- `Map.get` on the buffer map. -/
def mapGet (m : List (Nat × ToolCallBuffer)) (i : Nat) : Option ToolCallBuffer :=
  match m with
  | [] => none
  | (j, b) :: rest => if j = i then some b else mapGet rest i

/-- `Map.set` on the buffer map: overwrite in place or append. -/
def mapSet (m : List (Nat × ToolCallBuffer)) (i : Nat) (b : ToolCallBuffer) :
    List (Nat × ToolCallBuffer) :=
  match m with
  | [] => [(i, b)]
  | (j, b') :: rest =>
    if j = i then (j, b) :: rest else (j, b') :: mapSet rest i b

/-- `Map.delete` on the buffer map. -/
def mapDelete (m : List (Nat × ToolCallBuffer)) (i : Nat) :
    List (Nat × ToolCallBuffer) :=
  match m with
  | [] => []
  | (j, b') :: rest =>
    if j = i then rest else (j, b') :: mapDelete rest i

/-- The state produced by `reset()` (also the construction state). -/
def resetState : BufferState :=
  { buffers := [], completedIndices := [], emittedToolCallKeys := [],
    hasText := false, firstTool := true }

/-- `startToolCall(index, toolUseId, name)`. -/
def startToolCall (index : Nat) (toolUseId name : String) (st : BufferState) :
    BufferState :=
  let buf : ToolCallBuffer := { id := some toolUseId, name := some name, args := "" }
  { st with buffers := mapSet st.buffers index buf }

/-- `appendArgs(index, input)`: append to the entry when present, no-op
otherwise. -/
def appendArgs (index : Nat) (input : String) (st : BufferState) : BufferState :=
  match mapGet st.buffers index with
  | some buf =>
    { st with buffers := mapSet st.buffers index { buf with args := buf.args ++ input } }
  | none => st

/-- `markHasText()`. -/
def markHasText (st : BufferState) : BufferState := { st with hasText := true }

/-- `shouldAddSpaceBeforeFirstTool()`. -/
def shouldAddSpaceBeforeFirstTool (st : BufferState) : Bool :=
  st.hasText && st.firstTool

/-- `markFirstToolEmitted()`. -/
def markFirstToolEmitted (st : BufferState) : BufferState := { st with firstTool := false }

/-- Model of `tryEmit(index, progress, force)`. The reported part (if any)
is returned alongside the updated state. `genId` stands for the freshly
generated `call_…` identifier value; it is only consulted when the
buffered `id` is nullish, which `startToolCall` never produces. `force`
only controls diagnostic logging in the source and so does not affect the
result. -/
def tryEmit (genId : String) (index : Nat) (_force : Bool) (st : BufferState) :
    BufferState × Option ToolCallPart :=
  match mapGet st.buffers index with
  | none => (st, none)
  | some buf =>
    if st.completedIndices.contains index then (st, none)
    else
      match buf.name with
      | none => (st, none)
      | some nm =>
        if nm = "" then (st, none)
        else
          match tryParseJSONObject buf.args with
          | some fs =>
            let callId := buf.id.getD genId
            let key := nm ++ ":" ++ stringify (JSON.obj fs)
            if st.emittedToolCallKeys.contains key then
              ({ st with buffers := mapDelete st.buffers index,
                         completedIndices := st.completedIndices ++ [index] }, none)
            else
              ({ st with emittedToolCallKeys := st.emittedToolCallKeys ++ [key],
                         buffers := mapDelete st.buffers index,
                         completedIndices := st.completedIndices ++ [index] },
               some { callId := callId, name := nm, parameters := fs })
          | none => (st, none)

/-- `emitAll(progress)`: force-attempt emission over a snapshot of the
currently buffered indices (the source iterates `Array.from(entries())`). -/
def emitAll (genId : String) (st : BufferState) : BufferState × List ToolCallPart :=
  (st.buffers.map Prod.fst).foldl
    (fun acc i =>
      let r := tryEmit genId i true acc.1
      (r.1, acc.2 ++ r.2.toList))
    (st, [])

/-- One buffer-manager call, for reasoning about call sequences. -/
inductive BufferOp where
  | start (index : Nat) (toolUseId name : String)
  | append (index : Nat) (input : String)
  | emit (index : Nat) (force : Bool)

/-- Apply one operation; emissions are tagged with their index. -/
def applyOp (genId : String) (st : BufferState) :
    BufferOp → BufferState × List (Nat × ToolCallPart)
  | .start i toolUseId nm => (startToolCall i toolUseId nm st, [])
  | .append i s => (appendArgs i s st, [])
  | .emit i f =>
    let r := tryEmit genId i f st
    (r.1, r.2.toList.map (fun p => (i, p)))

/-- Run a sequence of buffer-manager calls, collecting tagged emissions. -/
def runOps (genId : String) (st : BufferState) :
    List BufferOp → BufferState × List (Nat × ToolCallPart)
  | [] => (st, [])
  | op :: ops =>
    let r1 := applyOp genId st op
    let r2 := runOps genId r1.1 ops
    (r2.1, r1.2 ++ r2.2)

/-- Feed argument fragments to one index, attempting emission after each
append (the stream processor's `contentBlockDelta` handling). -/
def feedChunks (genId : String) (i : Nat) (st : BufferState) :
    List String → BufferState × List ToolCallPart
  | [] => (st, [])
  | chunk :: rest =>
    let st1 := appendArgs i chunk st
    let r := tryEmit genId i false st1
    let r' := feedChunks genId i r.1 rest
    (r'.1, r.2.toList ++ r'.2)

/-- The full incremental scenario of the spec's first testable property:
register an index on a fresh stream, feed the fragments with an emission
attempt after each one, and force a final attempt (`contentBlockStop`). -/
def runIncremental (genId toolUseId name : String) (i : Nat)
    (chunks : List String) : List ToolCallPart :=
  let st0 := startToolCall i toolUseId name resetState
  let r := feedChunks genId i st0 chunks
  let rfin := tryEmit genId i true r.1
  r.2 ++ rfin.2.toList

/-! ## Generic chat messages (the host `vscode` API shapes)

The sources discriminate content parts by `instanceof` and duck-typed
shape checks; the embedding replaces this with a tagged union whose
constructors correspond one-to-one to the shapes tested
(`LanguageModelTextPart`, a `mimeType`+`data` part, a
`LanguageModelToolCallPart`, and the `callId`+`content` shape accepted by
`isToolResultPart`; `other` stands for any part matching none of them). -/

inductive ChatRole where
  | user
  | assistant
  | system
deriving DecidableEq

/-- One element of a tool result's `content` array: a
`LanguageModelTextPart`, a plain string, or anything else (ignored by
`collectToolResultText`). -/
inductive ResultContent where
  | textPart (value : String)
  | rawString (value : String)
  | other

inductive ContentPart where
  | text (value : String)
  | data (mimeType : String) (bytes : List Nat)
  | toolCall (callId : String) (name : String) (input : JSON)
  | toolResult (callId : String) (content : List ResultContent)
  | other

structure ChatMessage where
  role : ChatRole
  content : List ContentPart

/-- The duck-typed `isToolResultPart` check. -/
def isToolResultPartB : ContentPart → Bool
  | .toolResult _ _ => true
  | _ => false

/-- `collectToolResultText`: concatenate text parts and raw strings. -/
def collectToolResultText (content : List ResultContent) : String :=
  content.foldl
    (fun acc c =>
      match c with
      | .textPart v => acc ++ v
      | .rawString v => acc ++ v
      | .other => acc) ""

/-! ## Vendor (Bedrock Converse) message shapes (`types.ts`) -/

inductive BedrockRole where
  | user
  | assistant
deriving DecidableEq

inductive BedrockResultContent where
  | text (s : String)
  | json (j : JSON)

inductive BedrockBlock where
  | text (s : String)
  | image (format : String) (bytes : List Nat)
  | toolUse (toolUseId : String) (name : String) (input : JSON)
  | toolResult (toolUseId : String) (content : List BedrockResultContent)

structure BedrockMessage where
  role : BedrockRole
  content : List BedrockBlock

/-- Per-model conversion policy returned by `getModelProfile` (the
`profiles.ts` module is not part of this snapshot; the converters receive
the profile it would select for the given model id). -/
inductive ToolResultFormat where
  | text
  | json
deriving DecidableEq

structure ModelProfile where
  toolResultFormat : ToolResultFormat
  supportsToolChoice : Bool

/-! ## Message conversion (`converters/messages.ts`) -/

/-- Accumulator of the per-message part classification loop. `counter`
feeds `gen`, the model of the `Date.now()`+random id generator used when
a tool call carries a falsy `callId`. -/
structure PartAcc where
  textParts : List String
  imageBlocks : List BedrockBlock
  toolCalls : List BedrockBlock
  toolResults : List BedrockBlock
  systemTexts : List String
  counter : Nat

def emptyPartAcc (n : Nat) : PartAcc :=
  { textParts := [], imageBlocks := [], toolCalls := [], toolResults := [],
    systemTexts := [], counter := n }

/-- The allowed image formats. -/
def imageFormats : List String := ["png", "jpeg", "gif", "webp"]

/-- Classify one content part, mirroring the source's if/else chain. -/
def scanPart (profile : ModelProfile) (role : ChatRole) (gen : Nat → String)
    (acc : PartAcc) (p : ContentPart) : PartAcc :=
  match p with
  | .text v =>
    match role with
    | .user | .assistant => { acc with textParts := acc.textParts ++ [v] }
    | .system => { acc with systemTexts := acc.systemTexts ++ [v] }
  | .data mimeType bytes =>
    if mimeType.startsWith "image/" then
      let format := ((mimeType.splitOn "/").getD 1 "").toLower
      if imageFormats.contains format then
        { acc with imageBlocks := acc.imageBlocks ++ [.image format bytes] }
      else acc
    else acc
  | .toolCall callId name input =>
    -- `part.callId || generated`: the falsy case is the empty string
    let (toolUseId, n') :=
      if callId = "" then (gen acc.counter, acc.counter + 1) else (callId, acc.counter)
    -- `(part.input as Record<string, unknown>) ?? {}`
    let inputVal := match input with | JSON.null => JSON.obj [] | j => j
    { acc with toolCalls := acc.toolCalls ++ [.toolUse toolUseId name inputVal],
               counter := n' }
  | .toolResult callId content =>
    let resultText := collectToolResultText content
    let c : List BedrockResultContent :=
      match profile.toolResultFormat with
      | .json =>
        match jsonParse resultText with
        | some parsed => [.json parsed]
        | none => [.text resultText]
      | .text => [.text resultText]
    { acc with toolResults := acc.toolResults ++ [.toolResult callId c] }
  | .other => acc

/-- Whether the next message is a user message made only of tool results
(the one-message lookahead deciding whether to keep batching). -/
def nextIsToolResultOnly : List ChatMessage → Bool
  | [] => false
  | nm :: _ => nm.role = ChatRole.user && nm.content.all isToolResultPartB

/-- The text block prepended when the combined text is non-empty. -/
def textBlockOpt (combined : String) : List BedrockBlock :=
  if combined = "" then [] else [.text combined]

/-- The conversion loop of `convertMessages`, threading the pending
tool-result batch and the id-generation counter. -/
def convertLoop (profile : ModelProfile) (gen : Nat → String) :
    List ChatMessage → List BedrockBlock → Nat →
    List BedrockMessage × List String
  | [], pending, _ =>
    (if pending.isEmpty then [] else [{ role := .user, content := pending }], [])
  | m :: rest, pending, n =>
    let acc := m.content.foldl (scanPart profile m.role gen) (emptyPartAcc n)
    let combined := String.join acc.textParts
    let emittedAssistantToolCall :=
      !acc.toolCalls.isEmpty && m.role = ChatRole.assistant
    let msgs1 : List BedrockMessage :=
      if emittedAssistantToolCall then
        [{ role := .assistant,
           content := textBlockOpt combined ++ acc.imageBlocks ++ acc.toolCalls }]
      else []
    let flush :=
      !acc.toolResults.isEmpty && !nextIsToolResultOnly rest
    let msgs2 : List BedrockMessage :=
      if flush then [{ role := .user, content := pending ++ acc.toolResults }]
      else []
    let pending' :=
      if acc.toolResults.isEmpty then pending
      else if flush then [] else pending ++ acc.toolResults
    let msgs3 : List BedrockMessage :=
      if (combined ≠ "" ∨ !acc.imageBlocks.isEmpty) ∧ ¬emittedAssistantToolCall
          ∧ acc.toolResults.isEmpty then
        match m.role with
        | .user => [{ role := .user, content := textBlockOpt combined ++ acc.imageBlocks }]
        | .assistant =>
          [{ role := .assistant, content := textBlockOpt combined ++ acc.imageBlocks }]
        | .system => []
      else []
    let r := convertLoop profile gen rest pending' acc.counter
    (msgs1 ++ msgs2 ++ msgs3 ++ r.1, acc.systemTexts ++ r.2)

/-- Model of `convertMessages`: vendor messages plus extracted system
blocks. -/
def convertMessages (profile : ModelProfile) (gen : Nat → String)
    (messages : List ChatMessage) : List BedrockMessage × List String :=
  convertLoop profile gen messages [] 0

/-! ## Request validation (`validation.ts`) -/

/-- Full-string test for the regex `/^[\w-]+$/`. -/
def validToolNameB (s : String) : Bool :=
  !s.isEmpty && s.data.all isFnNameChar

structure ChatTool where
  name : String
  description : Option String
  inputSchema : Option JSON

/-- Model of `validateTools` (reachable only from the test suite; the
request pipeline never calls it). -/
def validateTools : List ChatTool → Except String Unit
  | [] => .ok ()
  | t :: ts =>
    if validToolNameB t.name then validateTools ts
    else
      .error ("Invalid tool name \"" ++ t.name ++
        "\": only alphanumeric characters, hyphens, and underscores are allowed.")

def noMessagesErr : String := "Invalid request: no messages."

def pairErrMsg : String :=
  "Invalid request: Tool call part must be followed by a User message with a LanguageModelToolResultPart with a matching callId."

/-- The pending tool-call ids of an assistant message (the JS `Set`
preserves only membership, which list filtering mirrors). -/
def toolCallIdsOf (content : List ContentPart) : List String :=
  (content.filterMap (fun p =>
    match p with
    | .toolCall callId _ _ => some callId
    | _ => none)).dedup

/-- The result call ids claimed by a message of tool-result parts. -/
def resultCallIds (content : List ContentPart) : List String :=
  content.filterMap (fun p =>
    match p with
    | .toolResult callId _ => some callId
    | _ => none)

/-- The `while (toolCallIds.size > 0)` loop: walk the following messages,
requiring each to be a user message made only of tool-result parts, and
delete the matched ids. -/
def consumeResults : List String → List ChatMessage → Except String Unit
  | ids, rest =>
    if ids.isEmpty then .ok ()
    else
      match rest with
      | [] => .error pairErrMsg
      | nm :: rest' =>
        if nm.role ≠ ChatRole.user then .error pairErrMsg
        else if !nm.content.all isToolResultPartB then .error pairErrMsg
        else
          consumeResults
            (ids.filter (fun i => !(resultCallIds nm.content).contains i)) rest'

/-- The per-message body of `validateRequest`'s `forEach`. -/
def validateLoop : List ChatMessage → Except String Unit
  | [] => .ok ()
  | m :: rest =>
    let step :=
      if m.role = ChatRole.assistant then consumeResults (toolCallIdsOf m.content) rest
      else .ok ()
    match step with
    | .error e => .error e
    | .ok () => validateLoop rest

/-- Model of `validateRequest`: reject an empty message list, then check
that every assistant tool call is answered by tool results in the
immediately following user messages. -/
def validateRequest (messages : List ChatMessage) : Except String Unit :=
  if messages.isEmpty then .error noMessagesErr
  else validateLoop messages

/-! ## Tool conversion (`converters/tools.ts`) -/

inductive BedrockToolChoice where
  | auto
  | tool (name : String)

structure BedrockToolSpec where
  name : String
  description : String
  inputSchema : JSON

structure BedrockToolConfig where
  tools : List BedrockToolSpec
  toolChoice : Option BedrockToolChoice

inductive ToolMode where
  | auto
  | required
deriving DecidableEq

def requiredModeErr : String :=
  "LanguageModelChatToolMode.Required is not supported with more than one tool"

def defaultInputSchema : JSON :=
  JSON.obj [("type", JSON.str "object"), ("properties", JSON.obj [])]

/-- Model of `convertTools`. The source's `.filter(t => t && typeof t ===
"object")` is the identity here, every embedded tool being a record. -/
def convertTools (tools : Option (List ChatTool)) (toolMode : ToolMode)
    (profile : ModelProfile) : Except String (Option BedrockToolConfig) :=
  let ts := tools.getD []
  if ts.isEmpty then .ok none
  else
    let toolSpecs := ts.map (fun t =>
      { name := sanitizeFunctionName t.name,
        description := t.description.getD "",
        inputSchema := sanitizeSchema (t.inputSchema.getD defaultInputSchema) none
        : BedrockToolSpec })
    if profile.supportsToolChoice then
      if toolMode = ToolMode.required then
        if ts.length ≠ 1 then .error requiredModeErr
        else
          let firstName := match ts with | [] => "" | t :: _ => t.name
          .ok (some { tools := toolSpecs,
                      toolChoice := some (.tool (sanitizeFunctionName firstName)) })
      else .ok (some { tools := toolSpecs, toolChoice := some .auto })
    else .ok (some { tools := toolSpecs, toolChoice := none })

/-! ## Token estimation (`providers/token.estimator.ts`, duplicated in
`provider.ts`) -/

/-- `Math.ceil(n / 4)` on a character count. -/
def ceilDiv4 (n : Nat) : Nat := (n + 3) / 4

/-- `estimateMessagesTokens`: 4 characters per token, text parts only. -/
def estimateMessagesTokens (msgs : List ChatMessage) : Nat :=
  msgs.foldl
    (fun total m =>
      m.content.foldl
        (fun t p =>
          match p with
          | .text v => t + ceilDiv4 v.length
          | _ => t) total) 0

/-- The JSON value `JSON.stringify` sees for a tool spec. -/
def toolSpecJSON (s : BedrockToolSpec) : JSON :=
  JSON.obj [("toolSpec", JSON.obj
    [("name", JSON.str s.name), ("description", JSON.str s.description),
     ("inputSchema", JSON.obj [("json", s.inputSchema)])])]

/-- The JSON value `JSON.stringify` sees for the tool config (an absent
`toolChoice` is dropped, as `JSON.stringify` drops `undefined`). -/
def toolConfigJSON (tc : BedrockToolConfig) : JSON :=
  JSON.obj ([("tools", JSON.arr (tc.tools.map toolSpecJSON))] ++
    (match tc.toolChoice with
     | none => []
     | some .auto => [("toolChoice", JSON.obj [("auto", JSON.obj [])])]
     | some (.tool n) =>
       [("toolChoice", JSON.obj [("tool", JSON.obj [("name", JSON.str n)])])]))

/-- `estimateToolTokens`: a quarter of the serialized config length. (The
`catch` branch is dead: the model serializer is total.) -/
def estimateToolTokens (tc : Option BedrockToolConfig) : Nat :=
  match tc with
  | none => 0
  | some tc =>
    if tc.tools.isEmpty then 0
    else ceilDiv4 (stringify (toolConfigJSON tc)).length

/-! ## Capability resolution (`services/openrouter.client.ts` and
`services/cache.service.ts`) -/

structure TopProvider where
  max_completion_tokens : Option Int

structure OpenRouterModel where
  id : String
  context_length : Option Int
  top_provider : Option TopProvider
  supported_parameters : Option (List String)

/-- TTL cache state (`CacheService`). The comparison `Date.now() <
this.expiry` is abstracted to the boolean `fresh`; real time is outside
the embedding. -/
structure CacheState where
  entries : List (String × OpenRouterModel)
  fresh : Bool

/-- `isValid()`: non-empty and not expired. -/
def cacheIsValid (c : CacheState) : Bool := !c.entries.isEmpty && c.fresh

/-- `getAll()`: a copy of the map when valid, empty otherwise. -/
def cacheGetAll (c : CacheState) : List (String × OpenRouterModel) :=
  if cacheIsValid c then c.entries else []

/-- The alternatives of the regex `/^(us|eu|ap|apac|global)\./i`. -/
def regionTokens : List String := ["us", "eu", "ap", "apac", "global"]

/-- `convert dots to dashes` (the regex `/\./g` with `-`). -/
def dotsToDashes (s : String) : String :=
  String.map (fun c => if c = '.' then '-' else c) s

/-- `normalizeModelId`: strip one leading region token, lowercase, dots
to dashes. -/
def normalizeModelId (modelId : String) : String :=
  let stripped :=
    match regionTokens.find? (fun t => modelId.toLower.startsWith (t ++ ".")) with
    | some t => modelId.drop (t.length + 1)
    | none => modelId
  dotsToDashes stripped.toLower

/-- The normalization applied to a cached id inside `findMetadata`
(lowercase, dots to dashes — no region strip). -/
def normalizeCached (cachedId : String) : String :=
  dotsToDashes cachedId.toLower

/-- The match rule of `findMetadata`: either normalized id contains the
other. -/
def idsMatch (cachedId bedrockModelId : String) : Bool :=
  let nid := normalizeModelId bedrockModelId
  let ncid := normalizeCached cachedId
  strIncludes ncid nid || strIncludes nid ncid

/-- Model of `findMetadata`: first cache entry matching under
`idsMatch`. -/
def findMetadata (cache : CacheState) (bedrockModelId : String) :
    Option OpenRouterModel :=
  ((cacheGetAll cache).find? (fun kv => idsMatch kv.1 bedrockModelId)).map Prod.snd

/-- Model of `supportsThinking` after the (external, never-throwing)
`fetchMetadata` call left the cache in state `cache`. -/
def supportsThinkingPure (cache : CacheState) (modelId : String) : Bool :=
  match findMetadata cache modelId with
  | none => false
  | some m =>
    match m.supported_parameters with
    | none => false
    | some ps => ps.contains "reasoning" || ps.contains "include_reasoning"

/-- Model of `getModelProperties` after `fetchMetadata`. -/
def getModelPropertiesPure (cache : CacheState) (modelId : String) :
    Option (Option Int × Option Int) :=
  match findMetadata cache modelId with
  | none => none
  | some m => some (m.context_length, m.top_provider.bind (fun tp => tp.max_completion_tokens))

/-! ## The request pipeline (`ChatRequestHandler.handleChatRequest`,
identically ordered in `provider.ts`'s
`provideLanguageModelChatResponse`) -/

inductive PipelineStep where
  | converted
  | validated
  | toolsConverted
  | limitChecked
  | tokensChecked
  | dispatched
  | streamed
deriving DecidableEq

structure ChatModelInfo where
  id : String
  maxInputTokens : Nat
  maxOutputTokens : Nat

def authErr : String := "Bedrock authentication not configured"

def tooManyToolsErr : String := "Cannot have more than 128 tools per request."

def tokenLimitErr : String := "Message exceeds token limit."

/-- Model of the request pipeline up to the vendor dispatch: the executed
steps in program order, paired with the outcome. `authOk` abstracts the
external auth-config lookup. The assembly of the request payload
(inference config, system blocks, thinking fields) is pure and cannot
fail; it is absorbed into the `dispatched` step, which stands for
`startConversationStream` — the first network interaction. -/
def handleChatRequest (authOk : Bool) (model : ChatModelInfo)
    (messages : List ChatMessage) (tools : Option (List ChatTool))
    (toolMode : ToolMode) (profile : ModelProfile) (gen : Nat → String) :
    List PipelineStep × Except String Unit :=
  if !authOk then ([], .error authErr)
  else
    -- the source converts before validating
    let _conv := convertMessages profile gen messages
    match validateRequest messages with
    | .error e => ([.converted], .error e)
    | .ok () =>
      match convertTools tools toolMode profile with
      | .error e => ([.converted, .validated], .error e)
      | .ok toolConfig =>
        if (match tools with
            | some ts => decide (ts.length > 128)
            | none => false) then
          ([.converted, .validated, .toolsConverted], .error tooManyToolsErr)
        else
          let inputTokenCount := estimateMessagesTokens messages
          let toolTokenCount := estimateToolTokens toolConfig
          let tokenLimit := max 1 model.maxInputTokens
          if inputTokenCount + toolTokenCount > tokenLimit then
            ([.converted, .validated, .toolsConverted, .limitChecked],
             .error tokenLimitErr)
          else
            ([.converted, .validated, .toolsConverted, .limitChecked,
              .tokensChecked, .dispatched, .streamed], .ok ())

/-! ## Verification vocabulary

Spec-side predicates and extractors used to state the claims; they are
deliberately written independently of the implementation functions they
are compared against. -/

/-- No two adjacent underscores. -/
def noDoubleUnderscore : List Char → Bool
  | [] => true
  | [_] => true
  | c :: d :: rest => !(c = '_' && d = '_') && noDoubleUnderscore (d :: rest)

/-- The number of tool calls with a falsy call id (each consumes one
generated identifier). -/
def countGenIds (parts : List ContentPart) : Nat :=
  parts.countP (fun p =>
    match p with
    | .toolCall callId _ _ => callId = ""
    | _ => false)

/-- The text values of a part list (user/assistant classification). -/
def textValuesOf (parts : List ContentPart) : List String :=
  parts.filterMap (fun p =>
    match p with
    | .text v => some v
    | _ => none)

/-- The message's combined text, extracted directly. -/
def combinedTextOf (m : ChatMessage) : String :=
  String.join (textValuesOf m.content)

/-- The message's image blocks, extracted directly. -/
def imageBlocksOf (parts : List ContentPart) : List BedrockBlock :=
  parts.filterMap (fun p =>
    match p with
    | .data mimeType bytes =>
      if mimeType.startsWith "image/" then
        let format := ((mimeType.splitOn "/").getD 1 "").toLower
        if imageFormats.contains format then some (.image format bytes) else none
      else none
    | _ => none)

/-- The message's tool-use blocks, extracted directly, threading the
id-generation counter through the empty-call-id tool calls. -/
def toolUsesOf (gen : Nat → String) : Nat → List ContentPart → List BedrockBlock
  | _, [] => []
  | n, .toolCall callId name input :: rest =>
    let inputVal := match input with | JSON.null => JSON.obj [] | j => j
    if callId = "" then
      .toolUse (gen n) name inputVal :: toolUsesOf gen (n + 1) rest
    else
      .toolUse callId name inputVal :: toolUsesOf gen n rest
  | n, _ :: rest => toolUsesOf gen n rest

/-- The message's tool-result blocks, extracted directly. -/
def toolResultsOf (profile : ModelProfile) (parts : List ContentPart) :
    List BedrockBlock :=
  parts.filterMap (fun p =>
    match p with
    | .toolResult callId content =>
      let resultText := collectToolResultText content
      let c : List BedrockResultContent :=
        match profile.toolResultFormat with
        | .json =>
          match jsonParse resultText with
          | some parsed => [.json parsed]
          | none => [.text resultText]
        | .text => [.text resultText]
      some (.toolResult callId c)
    | _ => none)

/-- The tool round-trip scenario of the spec (testable property 6). -/
def roundTripMsgs : List ChatMessage :=
  [{ role := .assistant,
     content := [.toolCall "c1" "search" (JSON.obj [("q", JSON.str "x")])] },
   { role := .user, content := [.toolResult "c1" [.textPart "ok"]] }]

/-- The expected conversion of `roundTripMsgs`. -/
def roundTripExpected : List BedrockMessage :=
  [{ role := .assistant,
     content := [.toolUse "c1" "search" (JSON.obj [("q", JSON.str "x")])] },
   { role := .user, content := [.toolResult "c1" [.text "ok"]] }]

/-- Whether an operation sequence contains no `startToolCall` for `i`
(the "no index reuse" side condition of the stream invariant). -/
def opsNoStart (i : Nat) (ops : List BufferOp) : Bool :=
  ops.all (fun op =>
    match op with
    | .start j _ _ => !(j == i)
    | _ => true)

/-- A representative model record for concrete instantiations. -/
def sampleModel : ChatModelInfo :=
  { id := "m", maxInputTokens := 200000, maxOutputTokens := 4096 }

/-- A representative profile for concrete instantiations. -/
def sampleProfile : ModelProfile :=
  { toolResultFormat := .text, supportsToolChoice := true }

/-- A representative id generator for concrete instantiations. -/
def sampleGen : Nat → String := fun n => "call-" ++ toString n

/-- The full successful trace of the request pipeline. -/
def fullTrace : List PipelineStep :=
  [.converted, .validated, .toolsConverted, .limitChecked,
   .tokensChecked, .dispatched, .streamed]

/-- A model advertising a tiny input limit. -/
def sampleModelTiny : ChatModelInfo :=
  { id := "m", maxInputTokens := 3, maxOutputTokens := 4096 }

/-- A model advertising an input limit of zero. -/
def sampleModelZero : ChatModelInfo :=
  { id := "m", maxInputTokens := 0, maxOutputTokens := 4096 }

/-- A one-message request whose text estimates to one token. -/
def sampleShortMsgs : List ChatMessage :=
  [{ role := .user, content := [.text "abcd"] }]

/-- A one-message request whose text estimates to four tokens. -/
def sampleLongMsgs : List ChatMessage :=
  [{ role := .user, content := [.text "abcdefghijklmnop"] }]

/-- A request whose only flaw is an unanswered assistant tool call. -/
def sampleUnpairedMsgs : List ChatMessage :=
  [{ role := .assistant, content := [.toolCall "c9" "t" (JSON.obj [])] }]

/-- Another structurally invalid request (unanswered tool call with
text). -/
def sampleUnpairedMsgs2 : List ChatMessage :=
  [{ role := .assistant, content := [.toolCall "w3" "t" (JSON.obj []), .text "x"] }]

/-! ## Properties of `sanitizeFunctionName` (claim C4) -/

theorem mem_collapseUnderscores {c : Char} {l : List Char}
    (h : c ∈ collapseUnderscores l) : c ∈ l := by
  induction l with
  | nil => simp [collapseUnderscores] at h
  | cons hd tl ih =>
    rw [collapseUnderscores] at h
    cases heq : collapseUnderscores tl with
    | nil =>
      rw [heq] at h
      simp at h
      simp [h]
    | cons d ds =>
      rw [heq] at h
      dsimp only at h
      by_cases hc : (decide (hd = '_') && decide (d = '_')) = true
      · rw [if_pos hc] at h
        exact List.mem_cons_of_mem _ (ih (by rw [heq]; exact h))
      · rw [if_neg hc] at h
        rcases List.mem_cons.mp h with h1 | h1
        · simp [h1]
        · exact List.mem_cons_of_mem _ (ih (by rw [heq]; exact h1))

theorem noDoubleUnderscore_collapse (l : List Char) :
    noDoubleUnderscore (collapseUnderscores l) = true := by
  induction l with
  | nil => simp [collapseUnderscores, noDoubleUnderscore]
  | cons hd tl ih =>
    rw [collapseUnderscores]
    cases heq : collapseUnderscores tl with
    | nil => simp [noDoubleUnderscore]
    | cons d ds =>
      rw [heq] at ih
      dsimp only
      by_cases hc : (decide (hd = '_') && decide (d = '_')) = true
      · rw [if_pos hc]
        exact ih
      · rw [if_neg hc]
        simp only [noDoubleUnderscore, Bool.and_eq_true, Bool.not_eq_true']
        exact ⟨by simpa using hc, ih⟩

theorem noDoubleUnderscore_take (l : List Char) (n : Nat)
    (h : noDoubleUnderscore l = true) : noDoubleUnderscore (l.take n) = true := by
  induction l generalizing n with
  | nil => simp [List.take_nil, noDoubleUnderscore]
  | cons hd tl ih =>
    cases n with
    | zero => simp [noDoubleUnderscore]
    | succ n =>
      cases tl with
      | nil => simp [noDoubleUnderscore]
      | cons d ds =>
        simp only [noDoubleUnderscore, Bool.and_eq_true] at h
        cases n with
        | zero => simp [noDoubleUnderscore]
        | succ n =>
          simp only [List.take_succ_cons, noDoubleUnderscore, Bool.and_eq_true]
          refine ⟨h.1, ?_⟩
          have := ih (n + 1) h.2
          simpa using this

theorem collapseUnderscores_head {c : Char} (rest : List Char) (h : c ≠ '_') :
    ∃ t, collapseUnderscores (c :: rest) = c :: t := by
  rw [collapseUnderscores]
  cases heq : collapseUnderscores rest with
  | nil => exact ⟨[], rfl⟩
  | cons d ds =>
    dsimp only
    rw [if_neg (by simp [h])]
    exact ⟨d :: ds, rfl⟩

theorem isFnNameChar_not_underscore_of_alpha {c : Char} (h : c.isAlpha = true) :
    c ≠ '_' := by
  intro he
  subst he
  simp [Char.isAlpha, Char.isUpper, Char.isLower] at h

/-- Claim C4 (amended): `sanitizeFunctionName` REPLACES characters outside
`[A-Za-z0-9_-]` with underscores (so `sanitizeFunctionName "a.b" = "a_b"`,
not `"ab"`), prepends `tool_` when the name does not start with a letter,
collapses repeated underscores, truncates to 64 characters, and returns
`"tool"` for empty input; consequently every output is at most 64
characters long, contains only allowed characters, has no repeated
underscores, and starts with a letter. -/
theorem sanitizeFunctionName_spec (name : String) :
    sanitizeFunctionName "" = "tool" ∧
    sanitizeFunctionName "a.b" = "a_b" ∧
    (sanitizeFunctionName name).length ≤ 64 ∧
    (∀ c ∈ (sanitizeFunctionName name).data, isFnNameChar c = true) ∧
    noDoubleUnderscore (sanitizeFunctionName name).data = true ∧
    startsWithAsciiLetter (sanitizeFunctionName name) = true := by
  refine ⟨by decide, by decide, ?_, ?_, ?_, ?_⟩
  · unfold sanitizeFunctionName
    split
    · decide
    · dsimp only
      simp [String.length, List.length_take]
  · unfold sanitizeFunctionName
    split
    · decide
    · intro c hc
      dsimp only at hc
      have h1 := mem_collapseUnderscores (List.mem_of_mem_take hc)
      split at h1
      · rcases List.mem_map.mp h1 with ⟨a, _, ha⟩
        subst ha
        split
        · assumption
        · decide
      · rcases List.mem_append.mp h1 with h3 | h3
        · have h4 : c ∈ ['t', 'o', 'o', 'l', '_'] := h3
          fin_cases h4 <;> decide
        · rcases List.mem_map.mp h3 with ⟨a, _, ha⟩
          subst ha
          split
          · assumption
          · decide
  · unfold sanitizeFunctionName
    split
    · decide
    · dsimp only
      exact noDoubleUnderscore_take _ _ (noDoubleUnderscore_collapse _)
  · unfold sanitizeFunctionName
    split
    · decide
    · rename_i hne
      have hdata : name.data ≠ [] := by
        intro h
        apply hne
        cases name with
        | mk data =>
          subst h
          rfl
      have hex : ∃ c t,
          (if startsWithAsciiLetter
              (String.mk (name.data.map (fun c => if isFnNameChar c then c else '_')))
            then name.data.map (fun c => if isFnNameChar c then c else '_')
            else "tool_".data ++ name.data.map (fun c => if isFnNameChar c then c else '_'))
            = c :: t ∧ c.isAlpha = true := by
        rcases hr : name.data.map (fun c => if isFnNameChar c then c else '_')
          with _ | ⟨c0, r0⟩
        · exact absurd (List.map_eq_nil_iff.mp hr) hdata
        · by_cases hs : startsWithAsciiLetter (String.mk (c0 :: r0)) = true
          · refine ⟨c0, r0, by rw [if_pos hs], ?_⟩
            simpa [startsWithAsciiLetter] using hs
          · refine ⟨'t', "ool_".data ++ (c0 :: r0), ?_, by decide⟩
            rw [if_neg hs]
            rfl
      obtain ⟨c, t, heq, halpha⟩ := hex
      dsimp only
      rw [heq]
      obtain ⟨t', ht'⟩ :=
        collapseUnderscores_head t (isFnNameChar_not_underscore_of_alpha halpha)
      rw [ht', show (64 : Nat) = 63 + 1 from rfl, List.take_succ_cons]
      simp [startsWithAsciiLetter, halpha]

/-- The claim's own worked example is wrong on the code: stripping would
give `"ab"`, but the source replaces the dot with an underscore. -/
theorem sanitizeFunctionName_counterexample :
    sanitizeFunctionName "a.b" = "a_b" ∧ sanitizeFunctionName "a.b" ≠ "ab" := by
  decide

/-! ## Capability-resolution fallback (claim C7) -/

/-- Claim C7: when the metadata catalog is empty (the state a failed or
never-completed fetch leaves behind) or no cached entry matches the
queried id under the normalize-then-substring rule, the reasoning-support
query returns `false` and the properties query returns no override. Both
queries are total Lean functions, so neither can raise. -/
theorem capability_fallback (cache : CacheState) (modelId : String)
    (h : cache.entries = [] ∨
      ∀ kv ∈ cacheGetAll cache, idsMatch kv.1 modelId = false) :
    supportsThinkingPure cache modelId = false ∧
    getModelPropertiesPure cache modelId = none := by
  have hfind : findMetadata cache modelId = none := by
    rcases h with h | h
    · simp [findMetadata, cacheGetAll, cacheIsValid, h]
    · unfold findMetadata
      rw [List.find?_eq_none.mpr (fun kv hkv => by simp [h kv hkv])]
      rfl
  simp [supportsThinkingPure, getModelPropertiesPure, hfind]

theorem capability_fallback_witness :
    supportsThinkingPure ⟨[], true⟩ "anthropic.claude-3" = false ∧
    getModelPropertiesPure ⟨[], true⟩ "anthropic.claude-3" = none :=
  capability_fallback ⟨[], true⟩ "anthropic.claude-3" (Or.inl rfl)

/-! ## Pipeline ordering and boundary checks (claims C3, C9, C10) -/

/-- Every trace of the pipeline is a prefix of the full trace. -/
theorem handleChatRequest_trace_shape (authOk : Bool) (model : ChatModelInfo)
    (messages : List ChatMessage) (tools : Option (List ChatTool))
    (toolMode : ToolMode) (profile : ModelProfile) (gen : Nat → String) :
    ∃ k, (handleChatRequest authOk model messages tools toolMode profile gen).1
      = fullTrace.take k := by
  unfold handleChatRequest
  split
  · exact ⟨0, rfl⟩
  · split
    · exact ⟨1, rfl⟩
    · split
      · exact ⟨2, rfl⟩
      · split
        · exact ⟨3, rfl⟩
        · dsimp only
          split
          · exact ⟨4, rfl⟩
          · exact ⟨7, rfl⟩

theorem fullTrace_take_mem (k : Nat)
    (h : PipelineStep.dispatched ∈ fullTrace.take k) :
    PipelineStep.validated ∈ fullTrace.take k := by
  rcases k with _ | _ | _ | _ | _ | _ | _ | k
  · exact absurd h (by decide)
  · exact absurd h (by decide)
  · exact absurd h (by decide)
  · exact absurd h (by decide)
  · exact absurd h (by decide)
  · exact absurd h (by decide)
  · decide
  · rw [List.take_of_length_le (by simp [fullTrace])] at h ⊢
    decide

/-- Claim C3 (amended): the pipeline runs `convertMessages` first and
`validateRequest` only afterwards, so a structural violation surfaces
after conversion — but still before tool conversion, the boundary checks
and the network dispatch: the outcome is the validation error and the
trace is exactly `[converted]`, so nothing is sent. In every run, the
dispatch step implies validation already happened. -/
theorem pipeline_validation_order (model : ChatModelInfo)
    (messages : List ChatMessage) (tools : Option (List ChatTool))
    (toolMode : ToolMode) (profile : ModelProfile) (gen : Nat → String)
    (e : String) (h : validateRequest messages = Except.error e) :
    handleChatRequest true model messages tools toolMode profile gen
      = ([PipelineStep.converted], Except.error e) ∧
    (∀ (authOk : Bool) (model' : ChatModelInfo) (messages' : List ChatMessage)
        (tools' : Option (List ChatTool)) (toolMode' : ToolMode)
        (profile' : ModelProfile) (gen' : Nat → String),
      PipelineStep.dispatched ∈
        (handleChatRequest authOk model' messages' tools' toolMode' profile' gen').1 →
      PipelineStep.validated ∈
        (handleChatRequest authOk model' messages' tools' toolMode' profile' gen').1) := by
  constructor
  · simp [handleChatRequest, h]
  · intro authOk model' messages' tools' toolMode' profile' gen' hdisp
    obtain ⟨k, hk⟩ := handleChatRequest_trace_shape authOk model' messages' tools'
      toolMode' profile' gen'
    rw [hk] at hdisp ⊢
    exact fullTrace_take_mem k hdisp

/-- A request whose only flaw is an unanswered assistant tool call: the
conversion step runs before the violation is raised, contradicting the
claim that validation precedes conversion. -/
theorem pipeline_validation_order_counterexample :
    validateRequest sampleUnpairedMsgs = Except.error pairErrMsg ∧
    handleChatRequest true sampleModel sampleUnpairedMsgs
        none ToolMode.auto sampleProfile sampleGen
      = ([PipelineStep.converted], Except.error pairErrMsg) := by
  constructor
  · rfl
  · rfl

theorem pipeline_validation_order_witness :
    handleChatRequest true sampleModel sampleUnpairedMsgs2
        none ToolMode.auto sampleProfile sampleGen
      = ([PipelineStep.converted], Except.error pairErrMsg) :=
  (pipeline_validation_order sampleModel sampleUnpairedMsgs2
    none ToolMode.auto sampleProfile sampleGen pairErrMsg rfl).1

/-- Claim C10 (amended): `validateRequest` rejects the empty message list
with "Invalid request: no messages.", and a zero-message request is never
dispatched — it does, however, reach message conversion, because the
pipeline converts before validating. -/
theorem validateRequest_empty (authOk : Bool) (model : ChatModelInfo)
    (tools : Option (List ChatTool)) (toolMode : ToolMode)
    (profile : ModelProfile) (gen : Nat → String) :
    validateRequest [] = Except.error noMessagesErr ∧
    (handleChatRequest authOk model [] tools toolMode profile gen).2
      = Except.error (if authOk then noMessagesErr else authErr) ∧
    PipelineStep.dispatched ∉
      (handleChatRequest authOk model [] tools toolMode profile gen).1 := by
  cases authOk
  · exact ⟨rfl, rfl, by simp [handleChatRequest]⟩
  · exact ⟨rfl, rfl, by simp [handleChatRequest, validateRequest, noMessagesErr]⟩

/-- The zero-message request does reach the conversion step, refuting the
claim's "every request reaching conversion contains at least one
message". -/
theorem validateRequest_empty_counterexample :
    handleChatRequest true sampleModel [] none ToolMode.auto sampleProfile sampleGen
      = ([PipelineStep.converted], Except.error noMessagesErr) ∧
    PipelineStep.converted ∈
      (handleChatRequest true sampleModel [] none ToolMode.auto sampleProfile
        sampleGen).1 := by
  exact ⟨rfl, by decide⟩

/-- Claim C9 (amended): a request declaring more than 128 tools, or whose
estimated input-plus-tool token count exceeds `max 1 maxInputTokens` (the
source clamps the advertised limit from below by 1), is rejected by an
error raised before the vendor transport is invoked — the `dispatched`
step never executes. -/
theorem boundary_limits (authOk : Bool) (model : ChatModelInfo)
    (messages : List ChatMessage) (tools : Option (List ChatTool))
    (toolMode : ToolMode) (profile : ModelProfile) (gen : Nat → String)
    (h : (∃ ts, tools = some ts ∧ ts.length > 128) ∨
      estimateMessagesTokens messages +
        (match convertTools tools toolMode profile with
         | .ok tc => estimateToolTokens tc
         | .error _ => 0) > max 1 model.maxInputTokens) :
    (∃ e, (handleChatRequest authOk model messages tools toolMode profile gen).2
      = Except.error e) ∧
    PipelineStep.dispatched ∉
      (handleChatRequest authOk model messages tools toolMode profile gen).1 := by
  unfold handleChatRequest
  split
  · exact ⟨⟨authErr, rfl⟩, by simp⟩
  · split
    · exact ⟨⟨_, rfl⟩, by simp⟩
    · split
      · exact ⟨⟨_, rfl⟩, by simp⟩
      · rename_i toolConfig hconv
        split
        · exact ⟨⟨_, rfl⟩, by simp⟩
        · rename_i hcount
          dsimp only
          split
          · exact ⟨⟨_, rfl⟩, by simp⟩
          · rename_i htok
            exfalso
            rcases h with ⟨ts, hts, hlen⟩ | h
            · subst hts
              simp at hcount
              omega
            · rw [hconv] at h
              dsimp only at h
              omega

theorem boundary_limits_witness :
    (∃ e, (handleChatRequest true sampleModelTiny sampleLongMsgs
        none ToolMode.auto sampleProfile sampleGen).2 = Except.error e) ∧
    PipelineStep.dispatched ∉
      (handleChatRequest true sampleModelTiny sampleLongMsgs
        none ToolMode.auto sampleProfile sampleGen).1 :=
  boundary_limits true sampleModelTiny sampleLongMsgs none ToolMode.auto
    sampleProfile sampleGen (Or.inr (by decide))

/-- With an advertised input limit of 0, an estimated count of 1 exceeds
the advertised limit yet the request is dispatched: the source compares
against `max 1 maxInputTokens`, not the advertised limit itself. -/
theorem boundary_limits_counterexample :
    estimateMessagesTokens sampleShortMsgs + estimateToolTokens none
        > sampleModelZero.maxInputTokens ∧
    (handleChatRequest true sampleModelZero sampleShortMsgs
        none ToolMode.auto sampleProfile sampleGen).2 = Except.ok () ∧
    PipelineStep.dispatched ∈
      (handleChatRequest true sampleModelZero sampleShortMsgs
        none ToolMode.auto sampleProfile sampleGen).1 := by
  refine ⟨by decide, rfl, by decide⟩

/-! ## Buffer-map lemmas (claims C1, C2, C6) -/

theorem mapGet_mapSet_self (m : List (Nat × ToolCallBuffer)) (i : Nat)
    (b : ToolCallBuffer) : mapGet (mapSet m i b) i = some b := by
  induction m with
  | nil => simp [mapSet, mapGet]
  | cons hd tl ih =>
    obtain ⟨j, b'⟩ := hd
    by_cases h : j = i <;> simp [mapSet, mapGet, h, ih]

theorem mapGet_mapSet_ne (m : List (Nat × ToolCallBuffer)) (i j : Nat)
    (b : ToolCallBuffer) (h : j ≠ i) : mapGet (mapSet m i b) j = mapGet m j := by
  induction m with
  | nil => simp [mapSet, mapGet, Ne.symm h]
  | cons hd tl ih =>
    obtain ⟨j0, b0⟩ := hd
    by_cases h0 : j0 = i
    · subst h0
      simp [mapSet, mapGet, Ne.symm h]
    · by_cases h1 : j0 = j
      · subst h1
        simp [mapSet, mapGet, h0]
      · simp [mapSet, mapGet, h0, h1, ih]

theorem mapGet_mapDelete_ne (m : List (Nat × ToolCallBuffer)) (i j : Nat)
    (h : j ≠ i) : mapGet (mapDelete m i) j = mapGet m j := by
  induction m with
  | nil => simp [mapDelete, mapGet]
  | cons hd tl ih =>
    obtain ⟨j0, b0⟩ := hd
    by_cases h0 : j0 = i
    · subst h0
      simp [mapDelete, mapGet, Ne.symm h, ih]
    · by_cases h1 : j0 = j
      · subst h1
        simp [mapDelete, mapGet, h0]
      · simp [mapDelete, mapGet, h0, h1, ih]

/-! ## Content-based deduplication (claim C1) -/

/-- Claim C1 (amended): deduplication is keyed on the ORDER-PRESERVING
`JSON.stringify` serialization of the parsed arguments, not on
order-insensitive deep equality. On a fresh stream, for two indices
registered under the same non-empty tool name whose syntactically
different argument strings both parse as objects, the first attempt
emits its ToolCall part; the second attempt is discarded precisely when
the two parsed field lists serialize identically (as for whitespace- or
escape-level differences over the same ordered fields), and emits a
SECOND part when the serializations differ — as they do for key-permuted,
deep-equal objects (see the counterexample). -/
theorem dedup_across_indices (i1 i2 : Nat)
    (nm toolUseId1 toolUseId2 a1 a2 genId : String)
    (o1 o2 : List (String × JSON))
    (hne : i1 ≠ i2) (hnm : nm ≠ "") (_hdiff : a1 ≠ a2)
    (h1 : tryParseJSONObject a1 = some o1)
    (h2 : tryParseJSONObject a2 = some o2) :
    let st1 := appendArgs i2 a2 (appendArgs i1 a1
      (startToolCall i2 toolUseId2 nm (startToolCall i1 toolUseId1 nm resetState)))
    let r1 := tryEmit genId i1 false st1
    let r2 := tryEmit genId i2 false r1.1
    r1.2 = some { callId := toolUseId1, name := nm, parameters := o1 } ∧
    (stringify (JSON.obj o2) = stringify (JSON.obj o1) → r2.2 = none) ∧
    (stringify (JSON.obj o2) ≠ stringify (JSON.obj o1) →
      r2.2 = some { callId := toolUseId2, name := nm, parameters := o2 }) := by
  have hne' : i2 ≠ i1 := Ne.symm hne
  intro st1 r1 r2
  have hst0 : startToolCall i2 toolUseId2 nm (startToolCall i1 toolUseId1 nm resetState)
      = { buffers := [(i1, ⟨some toolUseId1, some nm, ""⟩),
                      (i2, ⟨some toolUseId2, some nm, ""⟩)],
          completedIndices := [], emittedToolCallKeys := [],
          hasText := false, firstTool := true } := by
    simp [startToolCall, resetState, mapSet, hne]
  have hstA : st1
      = { buffers := [(i1, ⟨some toolUseId1, some nm, a1⟩),
                      (i2, ⟨some toolUseId2, some nm, a2⟩)],
          completedIndices := [], emittedToolCallKeys := [],
          hasText := false, firstTool := true } := by
    show appendArgs i2 a2 (appendArgs i1 a1 _) = _
    rw [hst0]
    simp [appendArgs, mapGet, mapSet, hne, hne']
  have hr1 : r1 =
      ({ buffers := [(i2, ⟨some toolUseId2, some nm, a2⟩)],
         completedIndices := [i1],
         emittedToolCallKeys := [nm ++ ":" ++ stringify (JSON.obj o1)],
         hasText := false, firstTool := true },
       some { callId := toolUseId1, name := nm, parameters := o1 }) := by
    show tryEmit genId i1 false st1 = _
    rw [hstA]
    simp [tryEmit, mapGet, mapDelete, hnm, h1, hne']
  refine ⟨by rw [hr1], ?_, ?_⟩
  · intro hs
    show (tryEmit genId i2 false r1.1).2 = none
    rw [hr1]
    simp [tryEmit, mapGet, mapDelete, hnm, h2, hne, hne', hs]
  · intro hs
    have hkeyne : (nm ++ ":" ++ stringify (JSON.obj o2)) ≠
        (nm ++ ":" ++ stringify (JSON.obj o1)) := by
      intro he
      apply hs
      have hd := congrArg (fun z : String => z.data) he
      simp only [String.data_append] at hd
      exact String.ext (List.append_cancel_left hd)
    show (tryEmit genId i2 false r1.1).2 = some _
    rw [hr1]
    simp [tryEmit, mapGet, mapDelete, hnm, h2, hne, hne', hkeyne]

/-- Witness for claim C1: same ordered field list under two syntactically
different spellings — the second attempt is deduplicated. -/
theorem dedup_across_indices_witness :
    (let st1 := appendArgs 1 " \x7b\"q\": \"x\"\x7d" (appendArgs 0 "\x7b\"q\":\"x\"\x7d"
      (startToolCall 1 "id2" "search" (startToolCall 0 "id1" "search" resetState)))
     let r1 := tryEmit "g" 0 false st1
     let r2 := tryEmit "g" 1 false r1.1
     r1.2 = some { callId := "id1", name := "search",
                   parameters := [("q", JSON.str "x")] } ∧
     r2.2 = none) := by
  have h := dedup_across_indices 0 1 "search" "id1" "id2" "\x7b\"q\":\"x\"\x7d"
    " \x7b\"q\": \"x\"\x7d" "g" [("q", JSON.str "x")] [("q", JSON.str "x")]
    (by decide) (by decide) (by decide) rfl rfl
  exact ⟨h.1, h.2.1 rfl⟩

/-- Counterexample to claim C1 as stated: the two argument strings parse
to key-permuted, hence deep-equal, objects (the field lists are
permutations of each other), yet under the same non-empty tool name BOTH
indices emit — two ToolCall parts in total, not one. The canonical key
uses `JSON.stringify` of the parsed arguments, which preserves key
insertion order, so the keys differ and no deduplication occurs. -/
theorem dedup_across_indices_counterexample :
    List.Perm [("a", JSON.num 1), ("b", JSON.num 2)]
      [("b", JSON.num 2), ("a", JSON.num 1)] ∧
    tryParseJSONObject "\x7b\"a\":1,\"b\":2\x7d"
      = some [("a", JSON.num 1), ("b", JSON.num 2)] ∧
    tryParseJSONObject "\x7b\"b\":2,\"a\":1\x7d"
      = some [("b", JSON.num 2), ("a", JSON.num 1)] ∧
    (let st1 := appendArgs 1 "\x7b\"b\":2,\"a\":1\x7d"
      (appendArgs 0 "\x7b\"a\":1,\"b\":2\x7d"
        (startToolCall 1 "id2" "t" (startToolCall 0 "id1" "t" resetState)))
     let r1 := tryEmit "g" 0 false st1
     let r2 := tryEmit "g" 1 false r1.1
     r1.2 = some { callId := "id1", name := "t",
                   parameters := [("a", JSON.num 1), ("b", JSON.num 2)] } ∧
     r2.2 = some { callId := "id2", name := "t",
                   parameters := [("b", JSON.num 2), ("a", JSON.num 1)] }) :=
  ⟨List.Perm.swap _ _ _, rfl, rfl, rfl, rfl⟩

/-! ## At-most-once emission per index (claim C6) -/

/-- Key uniqueness of the buffer map (every JS `Map` satisfies it; all
reachable buffer states do, `mapSet` never duplicating a key). -/
def uniqueNats : List Nat → Bool
  | [] => true
  | k :: ks => !(ks.contains k) && uniqueNats ks

theorem mapGet_mapDelete_self (m : List (Nat × ToolCallBuffer)) (i : Nat)
    (h : uniqueNats (m.map Prod.fst) = true) :
    mapGet (mapDelete m i) i = none := by
  induction m with
  | nil => simp [mapDelete, mapGet]
  | cons hd tl ih =>
    obtain ⟨j, b⟩ := hd
    simp only [List.map_cons, uniqueNats, Bool.and_eq_true, Bool.not_eq_true'] at h
    by_cases h0 : j = i
    · subst h0
      rw [mapDelete, if_pos rfl]
      -- `j` does not occur among the remaining keys
      clear ih
      induction tl with
      | nil => simp [mapGet]
      | cons hd2 tl2 ih2 =>
        obtain ⟨j2, b2⟩ := hd2
        simp only [List.map_cons, List.contains_cons, Bool.or_eq_false_iff,
          uniqueNats, Bool.and_eq_true, Bool.not_eq_true'] at h
        rw [mapGet, if_neg (Ne.symm (by simpa using h.1.1))]
        exact ih2 ⟨h.1.2, h.2.2⟩
    · rw [mapDelete, if_neg h0, mapGet, if_neg h0]
      exact ih h.2

theorem tryEmit_completed_noop (genId : String) (i : Nat) (f : Bool)
    (st : BufferState) (h : st.completedIndices.contains i = true) :
    tryEmit genId i f st = (st, none) := by
  unfold tryEmit
  split
  · rfl
  · rw [if_pos h]

theorem appendArgs_none_noop (i : Nat) (x : String) (st : BufferState)
    (h : mapGet st.buffers i = none) : appendArgs i x st = st := by
  unfold appendArgs
  rw [h]

/-- The two state fields `tryEmit` can touch move in one of two ways. -/
theorem tryEmit_state_shape (genId : String) (i : Nat) (f : Bool)
    (st : BufferState) :
    ((tryEmit genId i f st).1.completedIndices = st.completedIndices ∧
     (tryEmit genId i f st).1.buffers = st.buffers) ∨
    ((tryEmit genId i f st).1.completedIndices = st.completedIndices ++ [i] ∧
     (tryEmit genId i f st).1.buffers = mapDelete st.buffers i) := by
  unfold tryEmit
  split
  · exact Or.inl ⟨rfl, rfl⟩
  · split
    · exact Or.inl ⟨rfl, rfl⟩
    · split
      · exact Or.inl ⟨rfl, rfl⟩
      · split
        · exact Or.inl ⟨rfl, rfl⟩
        · split
          · dsimp only
            split
            · exact Or.inr ⟨rfl, rfl⟩
            · exact Or.inr ⟨rfl, rfl⟩
          · exact Or.inl ⟨rfl, rfl⟩

theorem contains_append_one {l : List Nat} {i j : Nat}
    (h : l.contains i = true) : (l ++ [j]).contains i = true := by
  induction l with
  | nil => simp [List.contains] at h
  | cons a l ih =>
    simp only [List.cons_append, List.contains_cons, Bool.or_eq_true] at h ⊢
    rcases h with h | h
    · exact Or.inl h
    · exact Or.inr (ih h)

theorem contains_append_self (l : List Nat) (i : Nat) :
    (l ++ [i]).contains i = true := by
  induction l with
  | nil => simp
  | cons a l ih =>
    simp only [List.cons_append, List.contains_cons, Bool.or_eq_true]
    exact Or.inr ih

/-- One operation cannot emit for a completed-and-cleared index, and it
preserves that state. -/
theorem applyOp_completed_silent (genId : String) (i : Nat) (st : BufferState)
    (op : BufferOp)
    (hc : st.completedIndices.contains i = true)
    (hb : mapGet st.buffers i = none)
    (hop : (match op with | BufferOp.start j _ _ => !(j == i) | _ => true) = true) :
    ((applyOp genId st op).2.filter (fun e => e.1 == i)) = [] ∧
    (applyOp genId st op).1.completedIndices.contains i = true ∧
    mapGet (applyOp genId st op).1.buffers i = none := by
  cases op with
  | start j toolUseId nm =>
    simp only [Bool.not_eq_true'] at hop
    have hji : j ≠ i := by simpa using hop
    refine ⟨rfl, hc, ?_⟩
    simp only [applyOp, startToolCall]
    rw [mapGet_mapSet_ne _ _ _ _ (Ne.symm hji)]
    exact hb
  | append j x =>
    refine ⟨rfl, ?_, ?_⟩
    · show (appendArgs j x st).completedIndices.contains i = true
      unfold appendArgs
      split
      · exact hc
      · exact hc
    · show mapGet (appendArgs j x st).buffers i = none
      by_cases hji : j = i
      · subst hji
        rw [appendArgs_none_noop _ _ _ hb]
        exact hb
      · unfold appendArgs
        split
        · rename_i buf hbuf
          show mapGet (mapSet st.buffers j _) i = none
          rw [mapGet_mapSet_ne _ _ _ _ (Ne.symm hji)]
          exact hb
        · exact hb
  | emit j f =>
    by_cases hji : j = i
    · subst hji
      have hnoop : tryEmit genId j f st = (st, none) := by
        unfold tryEmit
        rw [hb]
      refine ⟨?_, ?_, ?_⟩
      · simp [applyOp, hnoop]
      · show (tryEmit genId j f st).1.completedIndices.contains j = true
        rw [hnoop]
        exact hc
      · show mapGet (tryEmit genId j f st).1.buffers j = none
        rw [hnoop]
        exact hb
    · have hsh := tryEmit_state_shape genId j f st
      refine ⟨?_, ?_, ?_⟩
      · simp only [applyOp]
        cases hres : (tryEmit genId j f st).2 with
        | none => simp
        | some p =>
          simp only [Option.toList]
          simp [hji]
      · rcases hsh with ⟨h1, _⟩ | ⟨h1, _⟩
        · simp only [applyOp]
          rw [h1]
          exact hc
        · simp only [applyOp]
          rw [h1]
          exact contains_append_one hc
      · rcases hsh with ⟨_, h2⟩ | ⟨_, h2⟩
        · simp only [applyOp]
          rw [h2]
          exact hb
        · simp only [applyOp]
          rw [h2, mapGet_mapDelete_ne _ _ _ (Ne.symm hji)]
          exact hb

/-- Runs from a completed-and-cleared index never emit for it again. -/
theorem runOps_completed_silent (genId : String) (i : Nat) (st : BufferState)
    (ops : List BufferOp)
    (hc : st.completedIndices.contains i = true)
    (hb : mapGet st.buffers i = none)
    (hns : opsNoStart i ops = true) :
    ((runOps genId st ops).2.filter (fun e => e.1 == i)) = [] ∧
    (runOps genId st ops).1.completedIndices.contains i = true ∧
    mapGet (runOps genId st ops).1.buffers i = none := by
  induction ops generalizing st with
  | nil => exact ⟨rfl, hc, hb⟩
  | cons op ops ih =>
    simp only [opsNoStart, List.all_cons, Bool.and_eq_true] at hns
    have hstep := applyOp_completed_silent genId i st op hc hb hns.1
    have hrest := ih (applyOp genId st op).1 hstep.2.1 hstep.2.2
      (by simp [opsNoStart, hns.2])
    simp only [runOps]
    refine ⟨?_, hrest.2.1, hrest.2.2⟩
    rw [List.filter_append, hstep.1, hrest.1]
    rfl

/-- An emitting `tryEmit` grew the completed set by its index and deleted
its buffer entry. -/
theorem tryEmit_some_shape (genId : String) (i : Nat) (f : Bool)
    (st st' : BufferState) (p : ToolCallPart)
    (h : tryEmit genId i f st = (st', some p)) :
    st'.completedIndices = st.completedIndices ++ [i] ∧
    st'.buffers = mapDelete st.buffers i := by
  unfold tryEmit at h
  split at h
  · exact absurd h (by simp)
  · split at h
    · exact absurd h (by simp)
    · split at h
      · exact absurd h (by simp)
      · split at h
        · exact absurd h (by simp)
        · split at h
          · dsimp only at h
            split at h
            · exact absurd h (by simp)
            · injection h with h1 h2
              subst h1
              exact ⟨rfl, rfl⟩
          · exact absurd h (by simp)

/-- Claim C6: a successful emission removes the buffer entry and marks the
index completed; from then on (absent index reuse) no operation sequence
emits for that index again, a `tryEmit` on a completed index returns the
state unchanged (in particular touching no emitted-key state) and emits
nothing, and an `appendArgs` for a cleared index is the identity. The
key-uniqueness hypothesis holds of every JS `Map` (and of every reachable
buffer state). -/
theorem at_most_once_per_index (genId : String) (i : Nat) (f : Bool)
    (st st' : BufferState) (p : ToolCallPart) (ops : List BufferOp)
    (hkeys : uniqueNats (st.buffers.map Prod.fst) = true)
    (hemit : tryEmit genId i f st = (st', some p))
    (hns : opsNoStart i ops = true) :
    (st'.completedIndices.contains i = true ∧ mapGet st'.buffers i = none) ∧
    ((runOps genId st' ops).2.filter (fun e => e.1 == i)) = [] ∧
    (∀ st2, st2.completedIndices.contains i = true →
      tryEmit genId i f st2 = (st2, none)) ∧
    (∀ st2 x, mapGet st2.buffers i = none → appendArgs i x st2 = st2) := by
  obtain ⟨h1, h2⟩ := tryEmit_some_shape genId i f st st' p hemit
  have hinv : st'.completedIndices.contains i = true ∧
      mapGet st'.buffers i = none := by
    constructor
    · rw [h1]
      exact contains_append_self _ _
    · rw [h2]
      exact mapGet_mapDelete_self _ _ hkeys
  exact ⟨hinv,
    (runOps_completed_silent genId i st' ops hinv.1 hinv.2 hns).1,
    fun st2 h => tryEmit_completed_noop genId i f st2 h,
    fun st2 x h => appendArgs_none_noop i x st2 h⟩

theorem at_most_once_per_index_witness :
    (let st := appendArgs 0 "\x7b\x7d" (startToolCall 0 "id0" "t" resetState)
     let r := tryEmit "g" 0 false st
     (r.1.completedIndices.contains 0 = true ∧ mapGet r.1.buffers 0 = none) ∧
     ((runOps "g" r.1 [BufferOp.append 0 "x", BufferOp.emit 0 true]).2.filter
        (fun e => e.1 == 0)) = [] ∧
     (∀ st2, st2.completedIndices.contains 0 = true →
       tryEmit "g" 0 false st2 = (st2, none)) ∧
     (∀ st2 x, mapGet st2.buffers 0 = none → appendArgs 0 x st2 = st2)) :=
  at_most_once_per_index "g" 0 false
    (appendArgs 0 "\x7b\x7d" (startToolCall 0 "id0" "t" resetState))
    (tryEmit "g" 0 false
      (appendArgs 0 "\x7b\x7d" (startToolCall 0 "id0" "t" resetState))).1
    { callId := "id0", name := "t", parameters := [] }
    [BufferOp.append 0 "x", BufferOp.emit 0 true]
    rfl rfl rfl

/-! ## Assistant tool-call message shape (claim C8) -/

theorem scanPart_foldl_assistant (profile : ModelProfile) (gen : Nat → String)
    (parts : List ContentPart) (acc : PartAcc) :
    parts.foldl (scanPart profile ChatRole.assistant gen) acc =
      { textParts := acc.textParts ++ textValuesOf parts,
        imageBlocks := acc.imageBlocks ++ imageBlocksOf parts,
        toolCalls := acc.toolCalls ++ toolUsesOf gen acc.counter parts,
        toolResults := acc.toolResults ++ toolResultsOf profile parts,
        systemTexts := acc.systemTexts,
        counter := acc.counter + countGenIds parts } := by
  induction parts generalizing acc with
  | nil =>
    simp [textValuesOf, imageBlocksOf, toolUsesOf, toolResultsOf, countGenIds]
  | cons p rest ih =>
    rw [List.foldl_cons, ih]
    cases p with
    | text v =>
      simp [scanPart, textValuesOf, imageBlocksOf, toolUsesOf, toolResultsOf,
        countGenIds, List.filterMap_cons, List.countP_cons]
    | data mimeType bytes =>
      by_cases hmi : mimeType.startsWith "image/" = true
      · by_cases hfmt : ((mimeType.splitOn "/")[1]?.getD "").toLower ∈ imageFormats
        · simp [scanPart, hmi, hfmt, textValuesOf, imageBlocksOf, toolUsesOf,
            toolResultsOf, countGenIds, List.filterMap_cons, List.countP_cons]
        · simp [scanPart, hmi, hfmt, textValuesOf, imageBlocksOf, toolUsesOf,
            toolResultsOf, countGenIds, List.filterMap_cons, List.countP_cons]
      · simp [scanPart, hmi, textValuesOf, imageBlocksOf, toolUsesOf,
          toolResultsOf, countGenIds, List.filterMap_cons, List.countP_cons]
    | toolCall callId nm input =>
      by_cases hid : callId = ""
      · subst hid
        simp [scanPart, textValuesOf, imageBlocksOf, toolUsesOf, toolResultsOf,
          countGenIds, List.filterMap_cons, List.countP_cons]
        omega
      · simp [scanPart, hid, textValuesOf, imageBlocksOf, toolUsesOf,
          toolResultsOf, countGenIds, List.filterMap_cons, List.countP_cons]
    | toolResult callId content =>
      simp [scanPart, textValuesOf, imageBlocksOf, toolUsesOf, toolResultsOf,
        countGenIds, List.filterMap_cons, List.countP_cons]
    | other =>
      simp [scanPart, textValuesOf, imageBlocksOf, toolUsesOf, toolResultsOf,
        countGenIds, List.filterMap_cons, List.countP_cons]

/-- Claim C8: an assistant message with at least one ToolCall part converts
to exactly one vendor assistant message whose content is the combined text
(when non-empty), then the image blocks, then the tool-use blocks, in that
order; and the spec's tool round-trip scenario converts to exactly the two
expected vendor messages under every model profile. -/
theorem assistant_toolcall_shape (profile : ModelProfile) (gen : Nat → String)
    (m : ChatMessage) (hrole : m.role = ChatRole.assistant)
    (htc : toolUsesOf gen 0 m.content ≠ []) :
    ((convertMessages profile gen [m]).1.filter
        (fun bm => bm.role = BedrockRole.assistant)) =
      [{ role := .assistant,
         content := textBlockOpt (combinedTextOf m) ++ imageBlocksOf m.content
           ++ toolUsesOf gen 0 m.content }] ∧
    (∀ (profile2 : ModelProfile) (gen2 : Nat → String),
      convertMessages profile2 gen2 roundTripMsgs = (roundTripExpected, [])) := by
  constructor
  · unfold convertMessages convertLoop
    rw [hrole, scanPart_foldl_assistant]
    simp only [emptyPartAcc, List.nil_append]
    have hne : (toolUsesOf gen 0 m.content).isEmpty = false := by
      cases h : toolUsesOf gen 0 m.content with
      | nil => exact absurd h htc
      | cons a l => rfl
    rw [hne]
    simp only [combinedTextOf]
    simp [convertLoop, nextIsToolResultOnly, List.filter_append]
  · intro profile2 gen2
    obtain ⟨fmt, stc⟩ := profile2
    cases fmt <;> rfl

theorem assistant_toolcall_shape_witness :
    ((convertMessages sampleProfile sampleGen
        [{ role := .assistant,
           content := [.text "hi", .toolCall "c7" "t" (JSON.obj [])] }]).1.filter
        (fun bm => bm.role = BedrockRole.assistant)) =
      [{ role := .assistant,
         content := textBlockOpt (combinedTextOf
             { role := .assistant,
               content := [.text "hi", .toolCall "c7" "t" (JSON.obj [])] })
           ++ imageBlocksOf [.text "hi", .toolCall "c7" "t" (JSON.obj [])]
           ++ toolUsesOf sampleGen 0 [.text "hi", .toolCall "c7" "t" (JSON.obj [])] }] :=
  (assistant_toolcall_shape sampleProfile sampleGen
    { role := .assistant, content := [.text "hi", .toolCall "c7" "t" (JSON.obj [])] }
    rfl (fun h => by simp [toolUsesOf] at h)).1

/-! ## Idempotence of `sanitizeSchema` (claim C5)

`sanitize(sanitize(s)) = sanitize(s)` is proved by characterizing the
outputs: `SanOK pn j` describes exactly the shape `sanitizeSchema _ pn`
produces, every output satisfies it (`sanOK_shape`), and every value
satisfying it is a fixed point (`sanOK_fix`). The hypothesis `wfJSON s`
(no object repeats a key, recursively) holds of every JavaScript value —
JS objects cannot repeat keys — and is needed because the embedding's
field lists could otherwise alias keys. -/

/-- Key uniqueness of a string key list. -/
def uniqueKeys : List String → Bool
  | [] => true
  | k :: ks => !(ks.contains k) && uniqueKeys ks

mutual

/-- Recursive well-formedness of a JS value: no object repeats a key. -/
def wfJSON : JSON → Bool
  | .null => true
  | .bool _ => true
  | .num _ => true
  | .str _ => true
  | .arr xs => wfList xs
  | .obj fs => uniqueKeys (fs.map Prod.fst) && wfFields fs

def wfList : List JSON → Bool
  | [] => true
  | x :: xs => wfJSON x && wfList xs

def wfFields : List (String × JSON) → Bool
  | [] => true
  | (_, v) :: fs => wfJSON v && wfFields fs

end

/-- The `required` key of a sanitized object: absent, or an array of
strings. -/
def requiredOK (fs : List (String × JSON)) : Prop :=
  match getKey fs "required" with
  | none => True
  | some (JSON.arr xs) => ∀ x ∈ xs, ∃ s, x = JSON.str s
  | some _ => False

/-- The `additionalProperties` key of a sanitized object: absent, or a
boolean. -/
def apOK (fs : List (String × JSON)) : Prop :=
  getKey fs "additionalProperties" = none ∨
  ∃ b, getKey fs "additionalProperties" = some (JSON.bool b)

/-- Shape of `sanitizeSchema` outputs under the name hint `pn`. -/
inductive SanOK : Option String → JSON → Prop where
  | objS (pn : Option String) (fs ps : List (String × JSON))
      (hkeys : ∀ kv ∈ fs, kv.1 ∈ schemaAllowKeys)
      (htype : getKey fs "type" = some (JSON.str "object"))
      (hprops : getKey fs "properties" = some (JSON.obj ps))
      (hpuniq : uniqueKeys (ps.map Prod.fst) = true)
      (hrec : ∀ kv ∈ ps, SanOK (some kv.1) kv.2)
      (hreq : requiredOK fs)
      (hap : apOK fs) : SanOK pn (JSON.obj fs)
  | arrS (pn : Option String) (fs : List (String × JSON)) (it : JSON)
      (hkeys : ∀ kv ∈ fs, kv.1 ∈ schemaAllowKeys)
      (htype : getKey fs "type" = some (JSON.str "array"))
      (hitems : getKey fs "items" = some it)
      (hrec : SanOK none it) : SanOK pn (JSON.obj fs)
  | otherS (pn : Option String) (fs : List (String × JSON)) (tv : JSON)
      (hkeys : ∀ kv ∈ fs, kv.1 ∈ schemaAllowKeys)
      (htype : getKey fs "type" = some tv)
      (hnn : tv ≠ JSON.null)
      (hobj : tv ≠ JSON.str "object")
      (harr : tv ≠ JSON.str "array")
      (hnum : tv = JSON.str "number" → isIntegerLikePropertyName pn = false) :
      SanOK pn (JSON.obj fs)

theorem getKey_none_of_not_allowed {fs : List (String × JSON)} {c : String}
    (hkeys : ∀ kv ∈ fs, kv.1 ∈ schemaAllowKeys) (hc : c ∉ schemaAllowKeys) :
    getKey fs c = none := by
  cases h : getKey fs c with
  | none => rfl
  | some v => exact absurd (hkeys (c, v) (getKey_mem h)) hc

theorem pruneFields_eq_self {fs : List (String × JSON)}
    (hkeys : ∀ kv ∈ fs, kv.1 ∈ schemaAllowKeys) : pruneFields fs = fs := by
  unfold pruneFields
  apply List.filter_eq_self.mpr
  intro kv hkv
  simpa using hkeys kv hkv

theorem schemaBaseFields_eq_self {fs : List (String × JSON)}
    (hkeys : ∀ kv ∈ fs, kv.1 ∈ schemaAllowKeys) : schemaBaseFields fs = fs := by
  unfold schemaBaseFields
  have h1 : compositeBranch fs = none := by
    unfold compositeBranch
    rw [getKey_none_of_not_allowed hkeys (by decide),
      getKey_none_of_not_allowed hkeys (by decide),
      getKey_none_of_not_allowed hkeys (by decide)]
  rw [h1]
  exact pruneFields_eq_self hkeys

theorem isNullish_false_of_ne_null {tv : JSON} (h : tv ≠ JSON.null) :
    isNullish (some tv) = false := by
  cases tv <;> first | rfl | exact absurd rfl h

theorem isNullish_false_elim {t : Option JSON} (h : isNullish t = false) :
    ∃ tv, t = some tv ∧ tv ≠ JSON.null := by
  cases t with
  | none => simp [isNullish] at h
  | some tv =>
    cases tv with
    | null => simp [isNullish] at h
    | bool b => exact ⟨_, rfl, by simp⟩
    | num n => exact ⟨_, rfl, by simp⟩
    | str v => exact ⟨_, rfl, by simp⟩
    | arr xs => exact ⟨_, rfl, by simp⟩
    | obj fs => exact ⟨_, rfl, by simp⟩

theorem isTypeTag_true_iff (t : Option JSON) (s : String) :
    isTypeTag t s = true ↔ t = some (JSON.str s) := by
  constructor
  · intro h
    cases t with
    | none => simp [isTypeTag] at h
    | some tv =>
      cases tv <;> simp [isTypeTag] at h
      case str v => rw [show v = s from by simpa using h]
  · intro h
    subst h
    simp [isTypeTag]

theorem isTypeTag_false_of_ne {tv : JSON} {s : String}
    (h : tv ≠ JSON.str s) : isTypeTag (some tv) s = false := by
  cases htag : isTypeTag (some tv) s with
  | false => rfl
  | true =>
    have h1 := (isTypeTag_true_iff _ _).mp htag
    injection h1 with h2
    exact absurd h2 h

/-- On an already-sanitized field list, `schemaHead` is the identity. -/
theorem schemaHead_fixed {fs : List (String × JSON)} {tv : JSON}
    (pn : Option String)
    (hkeys : ∀ kv ∈ fs, kv.1 ∈ schemaAllowKeys)
    (htype : getKey fs "type" = some tv) (hnn : tv ≠ JSON.null)
    (hnum : tv = JSON.str "number" → isIntegerLikePropertyName pn = false) :
    schemaHead fs pn = (fs, some tv) := by
  unfold schemaHead
  rw [schemaBaseFields_eq_self hkeys, htype,
    isNullish_false_of_ne_null hnn]
  simp only [Bool.false_eq_true, if_false]
  by_cases hn : tv = JSON.str "number"
  · subst hn
    rw [show isTypeTag (some (JSON.str "number")) "number" = true from rfl,
      hnum rfl]
    rfl
  · rw [isTypeTag_false_of_ne hn]
    rfl

theorem getKey_deleteKey_ne (fs : List (String × JSON)) (k k' : String)
    (h : k' ≠ k) : getKey (deleteKey fs k) k' = getKey fs k' := by
  induction fs with
  | nil => simp [deleteKey, getKey]
  | cons hd tl ih =>
    obtain ⟨k0, v0⟩ := hd
    by_cases h0 : k0 = k
    · subst h0
      rw [deleteKey, if_pos rfl, getKey, if_neg (fun hh => h hh.symm)]
    · rw [deleteKey, if_neg h0]
      by_cases h1 : k0 = k'
      · subst h1
        rw [getKey, if_pos rfl, getKey, if_pos rfl]
      · rw [getKey, if_neg h1, getKey, if_neg h1, ih]

theorem mem_deleteKey {kv : String × JSON} {fs : List (String × JSON)}
    {k : String} (h : kv ∈ deleteKey fs k) : kv ∈ fs := by
  induction fs with
  | nil => simp [deleteKey] at h
  | cons hd tl ih =>
    obtain ⟨k0, v0⟩ := hd
    by_cases h0 : k0 = k
    · subst h0
      rw [deleteKey, if_pos rfl] at h
      exact List.mem_cons_of_mem _ h
    · rw [deleteKey, if_neg h0] at h
      rcases List.mem_cons.mp h with h1 | h1
      · exact h1 ▸ List.mem_cons_self _ _
      · exact List.mem_cons_of_mem _ (ih h1)

theorem setKey_forall {Q : String × JSON → Prop} {fs : List (String × JSON)}
    {k : String} {v : JSON} (hall : ∀ kv ∈ fs, Q kv) (hkv : Q (k, v)) :
    ∀ kv ∈ setKey fs k v, Q kv := by
  induction fs with
  | nil =>
    intro kv h
    rw [setKey] at h
    simp at h
    exact h ▸ hkv
  | cons hd tl ih =>
    obtain ⟨k0, v0⟩ := hd
    intro kv h
    by_cases h0 : k0 = k
    · subst h0
      rw [setKey, if_pos rfl] at h
      rcases List.mem_cons.mp h with h1 | h1
      · exact h1 ▸ hkv
      · exact hall kv (List.mem_cons_of_mem _ h1)
    · rw [setKey, if_neg h0] at h
      rcases List.mem_cons.mp h with h1 | h1
      · exact h1 ▸ hall (k0, v0) (List.mem_cons_self _ _)
      · exact ih (fun z hz => hall z (List.mem_cons_of_mem _ hz)) kv h1

theorem contains_of_sublist {l l' : List String} (hsub : List.Sublist l' l)
    {a : String} (h : l'.contains a = true) : l.contains a = true := by
  rw [List.elem_iff] at h ⊢
  exact hsub.subset h

theorem uniqueKeys_sublist {l l' : List String} (hsub : List.Sublist l' l)
    (h : uniqueKeys l = true) : uniqueKeys l' = true := by
  induction hsub with
  | slnil => rfl
  | cons a hsub ih =>
    rw [uniqueKeys, Bool.and_eq_true] at h
    exact ih h.2
  | cons₂ a hsub ih =>
    rw [uniqueKeys, Bool.and_eq_true] at h ⊢
    refine ⟨?_, ih h.2⟩
    rw [Bool.not_eq_true'] at h ⊢
    cases hc : List.contains _ a with
    | false => rfl
    | true => rw [contains_of_sublist hsub hc] at h; exact h.1

theorem keys_setKey_mem {fs : List (String × JSON)} {k a : String} {v : JSON}
    (h : ((setKey fs k v).map Prod.fst).contains a = true) :
    (fs.map Prod.fst).contains a = true ∨ a = k := by
  induction fs with
  | nil =>
    rw [setKey] at h
    simp at h
    exact Or.inr h
  | cons hd tl ih =>
    obtain ⟨k0, v0⟩ := hd
    by_cases h0 : k0 = k
    · subst h0
      rw [setKey, if_pos rfl] at h
      exact Or.inl h
    · rw [setKey, if_neg h0] at h
      simp only [List.map_cons, List.contains_cons, Bool.or_eq_true] at h ⊢
      rcases h with h | h
      · exact Or.inl (Or.inl h)
      · rcases ih h with h1 | h1
        · exact Or.inl (Or.inr h1)
        · exact Or.inr h1

theorem uniqueKeys_setKey {fs : List (String × JSON)} (k : String) (v : JSON)
    (h : uniqueKeys (fs.map Prod.fst) = true) :
    uniqueKeys ((setKey fs k v).map Prod.fst) = true := by
  induction fs with
  | nil => rw [setKey]; simp [uniqueKeys]
  | cons hd tl ih =>
    obtain ⟨k0, v0⟩ := hd
    simp only [List.map_cons, uniqueKeys, Bool.and_eq_true, Bool.not_eq_true'] at h
    by_cases h0 : k0 = k
    · subst h0
      rw [setKey, if_pos rfl]
      simp only [List.map_cons, uniqueKeys, Bool.and_eq_true, Bool.not_eq_true']
      exact h
    · rw [setKey, if_neg h0]
      simp only [List.map_cons, uniqueKeys, Bool.and_eq_true, Bool.not_eq_true']
      refine ⟨?_, ih h.2⟩
      cases hc : ((setKey tl k v).map Prod.fst).contains k0 with
      | false => rfl
      | true =>
        rcases keys_setKey_mem hc with h1 | h1
        · rw [h1] at h
          exact h.1
        · exact absurd h1 h0

theorem getKey_deleteKey_self_of_unique {fs : List (String × JSON)} {k : String}
    (h : uniqueKeys (fs.map Prod.fst) = true) :
    getKey (deleteKey fs k) k = none := by
  induction fs with
  | nil => rfl
  | cons hd tl ih =>
    obtain ⟨k0, v0⟩ := hd
    simp only [List.map_cons, uniqueKeys, Bool.and_eq_true, Bool.not_eq_true'] at h
    by_cases h0 : k0 = k
    · subst h0
      rw [deleteKey, if_pos rfl]
      -- k0 does not occur among tl's keys
      have hni := h.1
      clear ih
      induction tl with
      | nil => rfl
      | cons hd2 tl2 ih2 =>
        obtain ⟨k2, v2⟩ := hd2
        simp only [List.map_cons, List.contains_cons, Bool.or_eq_false_iff] at hni
        rw [getKey, if_neg (fun hh => by simp [hh] at hni)]
        refine ih2 ?_ ?_
        · simp only [List.map_cons, uniqueKeys, Bool.and_eq_true,
            Bool.not_eq_true'] at h ⊢
          refine ⟨?_, h.2.2⟩
          cases hcc : (List.map Prod.fst tl2).contains k0 with
          | false => rfl
          | true =>
            rw [hni.2] at hcc
            exact absurd hcc (by decide)
        · exact hni.2
    · rw [deleteKey, if_neg h0, getKey, if_neg h0]
      exact ih h.2

theorem setKey_not_mem_append {fs : List (String × JSON)} {k : String} (v : JSON)
    (h : (fs.map Prod.fst).contains k = false) : setKey fs k v = fs ++ [(k, v)] := by
  induction fs with
  | nil => rfl
  | cons hd tl ih =>
    obtain ⟨k0, v0⟩ := hd
    simp only [List.map_cons, List.contains_cons, Bool.or_eq_false_iff] at h
    rw [setKey, if_neg (fun hh => by simp [hh] at h), List.cons_append,
      ih h.2]

theorem foldl_setKey_append (ps : List (String × JSON)) :
    ∀ acc, uniqueKeys (ps.map Prod.fst) = true →
    (∀ kv ∈ ps, ((acc.map Prod.fst).contains kv.1) = false) →
    ps.foldl (fun a kv => setKey a kv.1 kv.2) acc = acc ++ ps := by
  induction ps with
  | nil => intro acc _ _; simp
  | cons kv ps ih =>
    intro acc huniq hdisj
    obtain ⟨k, v⟩ := kv
    simp only [List.map_cons, uniqueKeys, Bool.and_eq_true, Bool.not_eq_true'] at huniq
    rw [List.foldl_cons]
    rw [setKey_not_mem_append v (hdisj (k, v) (List.mem_cons_self _ _))]
    rw [ih (acc ++ [(k, v)]) huniq.2 ?_]
    · simp
    · intro kv2 hkv2
      have h1 : (acc.map Prod.fst).contains kv2.1 = false :=
        hdisj kv2 (List.mem_cons_of_mem _ hkv2)
      have h2 : kv2.1 ≠ k := by
        intro hh
        have hmem : (ps.map Prod.fst).contains k = true := by
          rw [List.elem_iff]
          exact hh ▸ List.mem_map_of_mem Prod.fst hkv2
        rw [hmem] at huniq
        exact absurd huniq.1 (by decide)
      cases hc : (((acc ++ [(k, v)]).map Prod.fst).contains kv2.1) with
      | false => rfl
      | true =>
        rw [List.elem_iff] at hc
        simp only [List.map_append, List.mem_append, List.map_cons, List.map_nil,
          List.mem_singleton] at hc
        rcases hc with hc | hc
        · have h3 : (List.map Prod.fst acc).contains kv2.1 = true := by
            rw [List.elem_iff]
            exact hc
          rw [h3] at h1
          exact h1
        · exact absurd hc h2

theorem getKey_setKey_self (fs : List (String × JSON)) (k : String) (v : JSON) :
    getKey (setKey fs k v) k = some v := by
  induction fs with
  | nil => rw [setKey, getKey, if_pos rfl]
  | cons hd tl ih =>
    obtain ⟨k0, v0⟩ := hd
    by_cases h0 : k0 = k
    · subst h0
      rw [setKey, if_pos rfl, getKey, if_pos rfl]
    · rw [setKey, if_neg h0, getKey, if_neg h0, ih]

theorem setKey_getKey_self {fs : List (String × JSON)} {k : String} {v : JSON}
    (h : getKey fs k = some v) : setKey fs k v = fs := by
  induction fs with
  | nil => rw [getKey] at h; exact absurd h (by simp)
  | cons hd tl ih =>
    obtain ⟨k0, v0⟩ := hd
    by_cases h0 : k0 = k
    · subst h0
      rw [getKey, if_pos rfl] at h
      injection h with h
      rw [setKey, if_pos rfl, h]
    · rw [getKey, if_neg h0] at h
      rw [setKey, if_neg h0, ih h]

theorem attach_foldl_setKey (ps : List (String × JSON))
    (acc : List (String × JSON)) :
    ps.attach.foldl
      (fun a kv => setKey a kv.1.1 (sanitizeSchema kv.1.2 (some kv.1.1))) acc =
    ps.foldl (fun a kv => setKey a kv.1 (sanitizeSchema kv.2 (some kv.1))) acc := by
  have h1 : ps.attach.foldl
      (fun a kv => setKey a kv.1.1 (sanitizeSchema kv.1.2 (some kv.1.1))) acc =
      (ps.attach.map Subtype.val).foldl
        (fun a kv => setKey a kv.1 (sanitizeSchema kv.2 (some kv.1))) acc := by
    rw [List.foldl_map]
  rw [h1, List.attach_map_subtype_val]

theorem foldl_setKey_congr {g : String × JSON → JSON} (ps : List (String × JSON)) :
    ∀ acc, (∀ kv ∈ ps, g kv = kv.2) →
    ps.foldl (fun a kv => setKey a kv.1 (g kv)) acc =
    ps.foldl (fun a kv => setKey a kv.1 kv.2) acc := by
  induction ps with
  | nil => intro acc _; rfl
  | cons kv ps ih =>
    intro acc hall
    rw [List.foldl_cons, List.foldl_cons,
      hall kv (List.mem_cons_self _ _),
      ih _ (fun z hz => hall z (List.mem_cons_of_mem _ hz))]

theorem foldl_setKey_self {ps : List (String × JSON)}
    (h : uniqueKeys (ps.map Prod.fst) = true) :
    ps.foldl (fun a kv => setKey a kv.1 kv.2) [] = ps := by
  rw [foldl_setKey_append ps [] h (fun kv _ => rfl)]
  rfl

theorem foldl_setKey_forall {Q : String × JSON → Prop} {g : String × JSON → JSON}
    (ps : List (String × JSON)) :
    ∀ acc, (∀ kv ∈ acc, Q kv) → (∀ kv ∈ ps, Q (kv.1, g kv)) →
    ∀ kv ∈ ps.foldl (fun a kv => setKey a kv.1 (g kv)) acc, Q kv := by
  induction ps with
  | nil => intro acc hacc _; exact hacc
  | cons kv ps ih =>
    intro acc hacc hall
    rw [List.foldl_cons]
    exact ih _ (setKey_forall hacc (hall kv (List.mem_cons_self _ _)))
      (fun z hz => hall z (List.mem_cons_of_mem _ hz))

theorem foldl_setKey_uniqueKeys {g : String × JSON → JSON}
    (ps : List (String × JSON)) :
    ∀ acc, uniqueKeys (acc.map Prod.fst) = true →
    uniqueKeys ((ps.foldl (fun a kv => setKey a kv.1 (g kv)) acc).map Prod.fst)
      = true := by
  induction ps with
  | nil => intro acc hacc; exact hacc
  | cons kv ps ih =>
    intro acc hacc
    rw [List.foldl_cons]
    exact ih _ (uniqueKeys_setKey _ _ hacc)

theorem getKey_requiredStep_ne (fs : List (String × JSON)) (k : String)
    (h : k ≠ "required") : getKey (requiredStep fs) k = getKey fs k := by
  unfold requiredStep
  split
  · rw [getKey_setKey_ne _ _ _ _ h]
  · rw [getKey_setKey_ne _ _ _ _ h]
  · rfl

theorem getKey_apStep_ne (fs : List (String × JSON)) (k : String)
    (h : k ≠ "additionalProperties") :
    getKey (additionalPropertiesStep fs) k = getKey fs k := by
  unfold additionalPropertiesStep
  split
  · rfl
  · rw [getKey_deleteKey_ne _ _ _ h]
  · rfl

theorem requiredOK_requiredStep (fs : List (String × JSON)) :
    requiredOK (requiredStep fs) := by
  unfold requiredStep
  split
  · unfold requiredOK
    rw [getKey_setKey_self]
    intro x hx
    rcases List.mem_filter.mp hx with ⟨_, hp⟩
    cases x <;> first | exact ⟨_, rfl⟩ | simp at hp
  · unfold requiredOK
    rw [getKey_setKey_self]
    intro x hx
    simp at hx
  · rename_i hnone
    unfold requiredOK
    rw [hnone]
    trivial

theorem requiredOK_of_getKey_eq {fs fs' : List (String × JSON)}
    (h : getKey fs' "required" = getKey fs "required") (hok : requiredOK fs) :
    requiredOK fs' := by
  unfold requiredOK at hok ⊢
  rw [h]
  exact hok

theorem apOK_additionalPropertiesStep {fs : List (String × JSON)}
    (h : uniqueKeys (fs.map Prod.fst) = true) :
    apOK (additionalPropertiesStep fs) := by
  unfold additionalPropertiesStep
  split
  · rename_i b hb
    exact Or.inr ⟨b, hb⟩
  · exact Or.inl (getKey_deleteKey_self_of_unique h)
  · rename_i hnone
    exact Or.inl hnone

theorem keys_requiredStep {fs : List (String × JSON)}
    (h : ∀ kv ∈ fs, kv.1 ∈ schemaAllowKeys) :
    ∀ kv ∈ requiredStep fs, kv.1 ∈ schemaAllowKeys := by
  unfold requiredStep
  split
  · exact setKey_forall h (show "required" ∈ schemaAllowKeys by decide)
  · exact setKey_forall h (show "required" ∈ schemaAllowKeys by decide)
  · exact h

theorem keys_apStep {fs : List (String × JSON)}
    (h : ∀ kv ∈ fs, kv.1 ∈ schemaAllowKeys) :
    ∀ kv ∈ additionalPropertiesStep fs, kv.1 ∈ schemaAllowKeys := by
  unfold additionalPropertiesStep
  split
  · exact h
  · exact fun kv hkv => h kv (mem_deleteKey hkv)
  · exact h

theorem uniqueKeys_requiredStep {fs : List (String × JSON)}
    (h : uniqueKeys (fs.map Prod.fst) = true) :
    uniqueKeys ((requiredStep fs).map Prod.fst) = true := by
  unfold requiredStep
  split
  · exact uniqueKeys_setKey _ _ h
  · exact uniqueKeys_setKey _ _ h
  · exact h

theorem requiredStep_fixed {fs : List (String × JSON)} (h : requiredOK fs) :
    requiredStep fs = fs := by
  unfold requiredOK at h
  unfold requiredStep
  split
  · rename_i xs hxs
    rw [hxs] at h
    have hfix : xs.filter
        (fun x => match x with | JSON.str _ => true | _ => false) = xs := by
      apply List.filter_eq_self.mpr
      intro x hx
      obtain ⟨sx, hsx⟩ := h x hx
      subst hsx
      rfl
    rw [hfix]
    exact setKey_getKey_self hxs
  · rename_i val hv hne
    rw [hne] at h
    cases val with
    | arr xs => exact absurd rfl (hv xs)
    | null => exact h.elim
    | bool b => exact h.elim
    | num n => exact h.elim
    | str s2 => exact h.elim
    | obj g => exact h.elim
  · rfl

theorem apStep_fixed {fs : List (String × JSON)} (h : apOK fs) :
    additionalPropertiesStep fs = fs := by
  unfold additionalPropertiesStep
  split
  · rfl
  · rename_i v hv hb
    rcases h with h | ⟨b, hb2⟩
    · rw [h] at hb
      exact absurd hb (by simp)
    · rw [hb2] at hb
      injection hb with hb
      exact ((hv b) hb.symm).elim
  · rfl

theorem wfFields_mem {fs : List (String × JSON)} (h : wfFields fs = true) :
    ∀ kv ∈ fs, wfJSON kv.2 = true := by
  induction fs with
  | nil => intro kv hkv; simp at hkv
  | cons hd tl ih =>
    obtain ⟨k0, v0⟩ := hd
    rw [wfFields, Bool.and_eq_true] at h
    intro kv hkv
    rcases List.mem_cons.mp hkv with h1 | h1
    · exact h1 ▸ h.1
    · exact ih h.2 kv h1

theorem wfList_mem {xs : List JSON} (h : wfList xs = true) :
    ∀ x ∈ xs, wfJSON x = true := by
  induction xs with
  | nil => intro x hx; simp at hx
  | cons hd tl ih =>
    rw [wfList, Bool.and_eq_true] at h
    intro x hx
    rcases List.mem_cons.mp hx with h1 | h1
    · exact h1 ▸ h.1
    · exact ih h.2 x h1

theorem wf_fields_pack {fs : List (String × JSON)}
    (h : wfJSON (JSON.obj fs) = true) :
    uniqueKeys (fs.map Prod.fst) = true ∧ ∀ kv ∈ fs, wfJSON kv.2 = true := by
  rw [wfJSON, Bool.and_eq_true] at h
  exact ⟨h.1, wfFields_mem h.2⟩

theorem keys_pruneFields {fs : List (String × JSON)} :
    ∀ kv ∈ pruneFields fs, kv.1 ∈ schemaAllowKeys := by
  intro kv hkv
  have h := (List.mem_filter.mp hkv).2
  rw [List.elem_iff] at h
  exact h

theorem keys_schemaBaseFields {fs0 : List (String × JSON)} :
    ∀ kv ∈ schemaBaseFields fs0, kv.1 ∈ schemaAllowKeys := by
  intro kv hkv
  exact keys_pruneFields kv hkv

theorem wf_schemaBaseFields {fs0 : List (String × JSON)}
    (h : wfJSON (JSON.obj fs0) = true) :
    uniqueKeys ((schemaBaseFields fs0).map Prod.fst) = true ∧
    ∀ kv ∈ schemaBaseFields fs0, wfJSON kv.2 = true := by
  unfold schemaBaseFields
  have hcore : ∀ M : List (String × JSON),
      uniqueKeys (M.map Prod.fst) = true → (∀ kv ∈ M, wfJSON kv.2 = true) →
      uniqueKeys ((pruneFields M).map Prod.fst) = true ∧
      ∀ kv ∈ pruneFields M, wfJSON kv.2 = true := by
    intro M hu hv
    refine ⟨?_, fun kv hkv => hv kv (mem_pruneFields hkv)⟩
    exact uniqueKeys_sublist (List.Sublist.map Prod.fst (List.filter_sublist M)) hu
  split
  · rename_i b bs heq
    obtain ⟨c, hc⟩ := compositeBranch_getKey heq
    have hwfv : wfJSON (JSON.arr (b :: bs)) = true :=
      (wf_fields_pack h).2 _ (getKey_mem hc)
    rw [wfJSON] at hwfv
    have hbr : wfJSON (pickBranch b bs) = true :=
      wfList_mem hwfv _ (pickBranch_mem b bs)
    cases hp : pickBranch b bs with
    | obj bf =>
      rw [hp] at hbr
      have hpk := wf_fields_pack hbr
      exact hcore _ (by rw [spreadFields]; exact hpk.1)
        (by rw [spreadFields]; exact hpk.2)
    | null => exact hcore _ rfl (by intro kv hkv; simp [spreadFields] at hkv)
    | bool bb => exact hcore _ rfl (by intro kv hkv; simp [spreadFields] at hkv)
    | num n => exact hcore _ rfl (by intro kv hkv; simp [spreadFields] at hkv)
    | str s2 => exact hcore _ rfl (by intro kv hkv; simp [spreadFields] at hkv)
    | arr xs => exact hcore _ rfl (by intro kv hkv; simp [spreadFields] at hkv)
  · exact hcore _ (wf_fields_pack h).1 (wf_fields_pack h).2

theorem schemaHead_spec (fs0 : List (String × JSON)) (pn : Option String) :
    ∃ tv, (schemaHead fs0 pn).2 = some tv ∧
      getKey (schemaHead fs0 pn).1 "type" = some tv ∧ tv ≠ JSON.null ∧
      (tv = JSON.str "number" → isIntegerLikePropertyName pn = false) := by
  unfold schemaHead
  split_ifs with h1 h2
  · refine ⟨JSON.str "object", rfl, getKey_setKey_self _ _ _, by simp, ?_⟩
    intro hh
    injection hh with hh
    exact absurd hh (by decide)
  · refine ⟨JSON.str "integer", rfl, getKey_setKey_self _ _ _, by simp, ?_⟩
    intro hh
    injection hh with hh
    exact absurd hh (by decide)
  · rw [Bool.not_eq_true] at h1
    obtain ⟨tv, htv, hnn⟩ := isNullish_false_elim h1
    refine ⟨tv, htv, htv, hnn, ?_⟩
    intro hh
    subst hh
    rw [htv] at h2
    cases hil : isIntegerLikePropertyName pn with
    | false => rfl
    | true =>
      exact absurd (by rw [hil]; rfl) h2

theorem keys_schemaHead (fs0 : List (String × JSON)) (pn : Option String) :
    ∀ kv ∈ (schemaHead fs0 pn).1, kv.1 ∈ schemaAllowKeys := by
  unfold schemaHead
  split_ifs
  · exact setKey_forall keys_schemaBaseFields
      (show "type" ∈ schemaAllowKeys by decide)
  · exact setKey_forall keys_schemaBaseFields
      (show "type" ∈ schemaAllowKeys by decide)
  · exact keys_schemaBaseFields

theorem wf_schemaHead {fs0 : List (String × JSON)} (pn : Option String)
    (h : wfJSON (JSON.obj fs0) = true) :
    uniqueKeys (((schemaHead fs0 pn).1).map Prod.fst) = true ∧
    ∀ kv ∈ (schemaHead fs0 pn).1, wfJSON kv.2 = true := by
  have hb := wf_schemaBaseFields h
  unfold schemaHead
  split_ifs
  · exact ⟨uniqueKeys_setKey _ _ hb.1, setKey_forall hb.2 rfl⟩
  · exact ⟨uniqueKeys_setKey _ _ hb.1, setKey_forall hb.2 rfl⟩
  · exact hb

theorem wf_propsEntries {fs0 : List (String × JSON)} (pn : Option String)
    (h : wfJSON (JSON.obj fs0) = true) :
    ∀ kv ∈ propsEntries (schemaHead fs0 pn).1, wfJSON kv.2 = true := by
  intro kv hkv
  unfold propsEntries at hkv
  split at hkv
  · rename_i pf heq
    have hwf : wfJSON (JSON.obj pf) = true :=
      (wf_schemaHead pn h).2 _ (getKey_mem heq)
    exact (wf_fields_pack hwf).2 kv hkv
  · rename_i xs heq
    have hwf : wfJSON (JSON.arr xs) = true :=
      (wf_schemaHead pn h).2 _ (getKey_mem heq)
    rw [wfJSON] at hwf
    simp only [List.mem_map] at hkv
    obtain ⟨p, hp, hkv2⟩ := hkv
    have h2 : p.2 ∈ xs := (List.of_mem_zip hp).2
    have h3 := wfList_mem hwf _ h2
    rw [← hkv2]
    exact h3
  · simp at hkv

theorem wf_itemsVal {fs0 : List (String × JSON)} {pn : Option String} {v : JSON}
    (h : wfJSON (JSON.obj fs0) = true)
    (hit : getKey (schemaHead fs0 pn).1 "items" = some v) : wfJSON v = true :=
  (wf_schemaHead pn h).2 _ (getKey_mem hit)

theorem san_nonobj_eq (j : JSON) (pn : Option String)
    (h : ∀ fs, j ≠ JSON.obj fs) : sanitizeSchema j pn =
    JSON.obj [("type", JSON.str "object"), ("properties", JSON.obj [])] := by
  cases j with
  | obj fs => exact absurd rfl (h fs)
  | null => rw [sanitizeSchema]; simp
  | bool b => rw [sanitizeSchema]; simp
  | num n => rw [sanitizeSchema]; simp
  | str s2 => rw [sanitizeSchema]; simp
  | arr xs => rw [sanitizeSchema]; simp

theorem san_obj_objBranch {fs0 : List (String × JSON)} (pn : Option String)
    (h : isTypeTag (schemaHead fs0 pn).2 "object" = true) :
    sanitizeSchema (JSON.obj fs0) pn =
    JSON.obj (additionalPropertiesStep (requiredStep
      (setKey (schemaHead fs0 pn).1 "properties"
        (JSON.obj ((propsEntries (schemaHead fs0 pn).1).foldl
          (fun acc kv => setKey acc kv.1 (sanitizeSchema kv.2 (some kv.1)))
          []))))) := by
  rw [sanitizeSchema.eq_def]
  dsimp only
  rw [if_pos h, attach_foldl_setKey]

theorem san_obj_arrBranch_cons {fs0 : List (String × JSON)} {x : JSON}
    {tl : List JSON} (pn : Option String)
    (h1 : isTypeTag (schemaHead fs0 pn).2 "object" = false)
    (h2 : isTypeTag (schemaHead fs0 pn).2 "array" = true)
    (hit : getKey (schemaHead fs0 pn).1 "items" = some (JSON.arr (x :: tl))) :
    sanitizeSchema (JSON.obj fs0) pn =
    JSON.obj (setKey (schemaHead fs0 pn).1 "items" (sanitizeSchema x none)) := by
  rw [sanitizeSchema.eq_def]
  dsimp only
  rw [if_neg (by rw [h1]; exact Bool.false_ne_true), if_pos h2]
  split
  · rename_i x2 tl2 heq
    rw [hit] at heq
    injection heq with heq
    injection heq with heq
    injection heq with heq1 heq2
    rw [heq1]
  · rename_i heq
    rw [hit] at heq
    injection heq with heq
    injection heq with heq
    exact absurd heq (by simp)
  · rename_i g2 heq
    rw [hit] at heq
    injection heq with heq
    exact absurd heq (by simp)
  · rename_i hno _ _
    exact (hno x tl hit).elim

theorem san_obj_arrBranch_nilArr {fs0 : List (String × JSON)}
    (pn : Option String)
    (h1 : isTypeTag (schemaHead fs0 pn).2 "object" = false)
    (h2 : isTypeTag (schemaHead fs0 pn).2 "array" = true)
    (hit : getKey (schemaHead fs0 pn).1 "items" = some (JSON.arr [])) :
    sanitizeSchema (JSON.obj fs0) pn =
    JSON.obj (setKey (schemaHead fs0 pn).1 "items"
      (JSON.obj [("type", JSON.str "object"), ("properties", JSON.obj [])])) := by
  rw [sanitizeSchema.eq_def]
  dsimp only
  rw [if_neg (by rw [h1]; exact Bool.false_ne_true), if_pos h2]
  split
  · rename_i x2 tl2 heq
    rw [hit] at heq
    injection heq with heq
    injection heq with heq
    exact absurd heq.symm (by simp)
  · rfl
  · rename_i g2 heq
    rw [hit] at heq
    injection heq with heq
    exact absurd heq (by simp)
  · rename_i hno _
    exact (hno hit).elim

theorem san_obj_arrBranch_obj {fs0 g : List (String × JSON)}
    (pn : Option String)
    (h1 : isTypeTag (schemaHead fs0 pn).2 "object" = false)
    (h2 : isTypeTag (schemaHead fs0 pn).2 "array" = true)
    (hit : getKey (schemaHead fs0 pn).1 "items" = some (JSON.obj g)) :
    sanitizeSchema (JSON.obj fs0) pn =
    JSON.obj (setKey (schemaHead fs0 pn).1 "items"
      (sanitizeSchema (JSON.obj g) none)) := by
  rw [sanitizeSchema.eq_def]
  dsimp only
  rw [if_neg (by rw [h1]; exact Bool.false_ne_true), if_pos h2]
  split
  · rename_i x tl heq
    rw [hit] at heq
    injection heq with heq
    exact absurd heq (by simp)
  · rename_i heq
    rw [hit] at heq
    injection heq with heq
    exact absurd heq (by simp)
  · rename_i g2 heq
    rw [hit] at heq
    injection heq with heq
    injection heq with heq
    rw [heq]
  · rename_i x1 x2 hno
    exact (hno g hit).elim

theorem san_obj_arrBranch_other {fs0 : List (String × JSON)}
    (pn : Option String)
    (h1 : isTypeTag (schemaHead fs0 pn).2 "object" = false)
    (h2 : isTypeTag (schemaHead fs0 pn).2 "array" = true)
    (hnarr : ∀ xs, getKey (schemaHead fs0 pn).1 "items" ≠ some (JSON.arr xs))
    (hnobj : ∀ g, getKey (schemaHead fs0 pn).1 "items" ≠ some (JSON.obj g)) :
    sanitizeSchema (JSON.obj fs0) pn =
    JSON.obj (setKey (schemaHead fs0 pn).1 "items"
      (JSON.obj [("type", JSON.str "string")])) := by
  rw [sanitizeSchema.eq_def]
  dsimp only
  rw [if_neg (by rw [h1]; exact Bool.false_ne_true), if_pos h2]
  split
  · rename_i x2 tl2 heq
    exact absurd heq (hnarr (x2 :: tl2))
  · rename_i heq
    exact absurd heq (hnarr [])
  · rename_i g2 heq
    exact absurd heq (hnobj g2)
  · rfl

theorem san_obj_other {fs0 : List (String × JSON)} (pn : Option String)
    (h1 : isTypeTag (schemaHead fs0 pn).2 "object" = false)
    (h2 : isTypeTag (schemaHead fs0 pn).2 "array" = false) :
    sanitizeSchema (JSON.obj fs0) pn = JSON.obj (schemaHead fs0 pn).1 := by
  rw [sanitizeSchema.eq_def]
  dsimp only
  rw [if_neg (by rw [h1]; exact Bool.false_ne_true),
    if_neg (by rw [h2]; exact Bool.false_ne_true)]

theorem sanOK_default (pn : Option String) :
    SanOK pn (JSON.obj [("type", JSON.str "object"),
      ("properties", JSON.obj [])]) := by
  refine SanOK.objS pn _ [] ?_ rfl rfl rfl ?_ ?_ ?_
  · intro kv hkv
    rcases List.mem_cons.mp hkv with h1 | h1
    · rw [h1]; exact (show "type" ∈ schemaAllowKeys by decide)
    · rcases List.mem_cons.mp h1 with h2 | h2
      · rw [h2]; exact (show "properties" ∈ schemaAllowKeys by decide)
      · simp at h2
  · intro kv hkv
    simp at hkv
  · unfold requiredOK
    exact trivial
  · exact Or.inl rfl

theorem sanOK_stringDefault (pn : Option String) :
    SanOK pn (JSON.obj [("type", JSON.str "string")]) := by
  refine SanOK.otherS pn _ (JSON.str "string") ?_ rfl (by simp) ?_ ?_ ?_
  · intro kv hkv
    rcases List.mem_cons.mp hkv with h1 | h1
    · rw [h1]; exact (show "type" ∈ schemaAllowKeys by decide)
    · simp at h1
  · intro hh
    injection hh with hh
    exact absurd hh (by decide)
  · intro hh
    injection hh with hh
    exact absurd hh (by decide)
  · intro hh
    injection hh with hh
    exact absurd hh (by decide)

theorem sanOK_obj {pn : Option String} {j : JSON} (h : SanOK pn j) :
    ∃ fs, j = JSON.obj fs := by
  cases h <;> exact ⟨_, rfl⟩

theorem sanOK_fix {pn : Option String} {j : JSON} (h : SanOK pn j) :
    sanitizeSchema j pn = j := by
  induction h with
  | objS pn fs ps hkeys htype hprops hpuniq hrec hreq hap ih =>
    have hhead : schemaHead fs pn = (fs, some (JSON.str "object")) :=
      schemaHead_fixed pn hkeys htype (by simp)
        (fun hh => by injection hh with hh; exact absurd hh (by decide))
    have htag : isTypeTag (schemaHead fs pn).2 "object" = true := by
      rw [hhead]; rfl
    rw [san_obj_objBranch pn htag, hhead]
    dsimp only
    have hent : propsEntries fs = ps := by
      unfold propsEntries
      rw [hprops]
    rw [hent]
    have h1 : ps.foldl
        (fun acc kv => setKey acc kv.1 (sanitizeSchema kv.2 (some kv.1))) [] =
        ps.foldl (fun acc kv => setKey acc kv.1 kv.2) [] :=
      foldl_setKey_congr ps [] (fun kv hkv => ih kv hkv)
    rw [h1, foldl_setKey_self hpuniq, setKey_getKey_self hprops,
      requiredStep_fixed hreq, apStep_fixed hap]
  | arrS pn fs it hkeys htype hitems hrec ih =>
    have hhead : schemaHead fs pn = (fs, some (JSON.str "array")) :=
      schemaHead_fixed pn hkeys htype (by simp)
        (fun hh => by injection hh with hh; exact absurd hh (by decide))
    obtain ⟨g, hg⟩ := sanOK_obj hrec
    subst hg
    have h1 : isTypeTag (schemaHead fs pn).2 "object" = false := by
      rw [hhead]; rfl
    have h2 : isTypeTag (schemaHead fs pn).2 "array" = true := by
      rw [hhead]; rfl
    rw [san_obj_arrBranch_obj pn h1 h2 (by rw [hhead]; exact hitems), ih,
      hhead]
    dsimp only
    rw [setKey_getKey_self hitems]
  | otherS pn fs tv hkeys htype hnn hobj harr hnum =>
    have hhead := schemaHead_fixed pn hkeys htype hnn hnum
    rw [san_obj_other pn (by rw [hhead]; exact isTypeTag_false_of_ne hobj)
      (by rw [hhead]; exact isTypeTag_false_of_ne harr), hhead]

theorem sanOK_shape_aux :
    ∀ n : Nat, ∀ j : JSON, ∀ pn : Option String, sizeOf j ≤ n →
    wfJSON j = true → SanOK pn (sanitizeSchema j pn) := by
  intro n
  induction n with
  | zero =>
    intro j pn hsz _
    cases j <;> simp at hsz
  | succ n ih =>
    intro j pn hsz hwf
    cases j with
    | null =>
      rw [san_nonobj_eq _ _ (fun fs hh => by simp at hh)]
      exact sanOK_default pn
    | bool b =>
      rw [san_nonobj_eq _ _ (fun fs hh => by simp at hh)]
      exact sanOK_default pn
    | num m =>
      rw [san_nonobj_eq _ _ (fun fs hh => by simp at hh)]
      exact sanOK_default pn
    | str s2 =>
      rw [san_nonobj_eq _ _ (fun fs hh => by simp at hh)]
      exact sanOK_default pn
    | arr xs =>
      rw [san_nonobj_eq _ _ (fun fs hh => by simp at hh)]
      exact sanOK_default pn
    | obj fs0 =>
      simp only [JSON.obj.sizeOf_spec] at hsz
      obtain ⟨tv, htv2, htvget, htvnn, htvnum⟩ := schemaHead_spec fs0 pn
      by_cases hobj : isTypeTag (schemaHead fs0 pn).2 "object" = true
      · rw [san_obj_objBranch pn hobj]
        have hpuniq : uniqueKeys
            (((propsEntries (schemaHead fs0 pn).1).foldl
              (fun acc kv => setKey acc kv.1 (sanitizeSchema kv.2 (some kv.1)))
              []).map Prod.fst) = true :=
          foldl_setKey_uniqueKeys _ [] rfl
        refine SanOK.objS pn _ _ ?_ ?_ ?_ hpuniq ?_ ?_ ?_
        · exact keys_apStep (keys_requiredStep (setKey_forall
            (keys_schemaHead fs0 pn)
            (show "properties" ∈ schemaAllowKeys by decide)))
        · have htveq : tv = JSON.str "object" := by
            have h2 := (isTypeTag_true_iff _ _).mp hobj
            rw [htv2] at h2
            injection h2
          rw [getKey_apStep_ne _ _ (by decide),
            getKey_requiredStep_ne _ _ (by decide),
            getKey_setKey_ne _ _ _ _ (by decide), htvget, htveq]
        · rw [getKey_apStep_ne _ _ (by decide),
            getKey_requiredStep_ne _ _ (by decide), getKey_setKey_self]
        · refine foldl_setKey_forall _ [] (fun kv hkv => absurd hkv (by simp)) ?_
          intro kv hkv
          have hsz2 : sizeOf kv.2 ≤ n := by
            have h2 := propsEntries_size hkv
            omega
          exact ih kv.2 (some kv.1) hsz2 (wf_propsEntries pn hwf kv hkv)
        · exact requiredOK_of_getKey_eq (getKey_apStep_ne _ _ (by decide))
            (requiredOK_requiredStep _)
        · exact apOK_additionalPropertiesStep
            (uniqueKeys_requiredStep
              (uniqueKeys_setKey _ _ (wf_schemaHead pn hwf).1))
      · rw [Bool.not_eq_true] at hobj
        by_cases harr : isTypeTag (schemaHead fs0 pn).2 "array" = true
        · have htveq : tv = JSON.str "array" := by
            have h2 := (isTypeTag_true_iff _ _).mp harr
            rw [htv2] at h2
            injection h2
          have htype2 : ∀ w : JSON,
              getKey (setKey (schemaHead fs0 pn).1 "items" w) "type"
                = some (JSON.str "array") := by
            intro w
            rw [getKey_setKey_ne _ _ _ _ (by decide), htvget, htveq]
          have hkeys2 : ∀ w : JSON,
              ∀ kv ∈ setKey (schemaHead fs0 pn).1 "items" w,
              kv.1 ∈ schemaAllowKeys := by
            intro w
            exact setKey_forall (keys_schemaHead fs0 pn)
              (show "items" ∈ schemaAllowKeys by decide)
          cases hit : getKey (schemaHead fs0 pn).1 "items" with
          | none =>
            rw [san_obj_arrBranch_other pn hobj harr
              (fun xs hh => by rw [hit] at hh; exact absurd hh (by simp))
              (fun g hh => by rw [hit] at hh; exact absurd hh (by simp))]
            exact SanOK.arrS pn _ _ (hkeys2 _) (htype2 _)
              (getKey_setKey_self _ _ _) (sanOK_stringDefault none)
          | some v =>
            have hwfv : wfJSON v = true := wf_itemsVal hwf hit
            have hsvlt := itemsVal_size hit
            cases v with
            | arr xs =>
              cases xs with
              | nil =>
                rw [san_obj_arrBranch_nilArr pn hobj harr hit]
                exact SanOK.arrS pn _ _ (hkeys2 _) (htype2 _)
                  (getKey_setKey_self _ _ _) (sanOK_default none)
              | cons x tlx =>
                rw [san_obj_arrBranch_cons pn hobj harr hit]
                refine SanOK.arrS pn _ _ (hkeys2 _) (htype2 _)
                  (getKey_setKey_self _ _ _) ?_
                have hszx : sizeOf x ≤ n := by
                  have h2 : sizeOf x < sizeOf (JSON.arr (x :: tlx)) :=
                    sizeOf_elem_lt_of_mem (List.mem_cons_self _ _)
                  omega
                have hwfx : wfJSON x = true := by
                  rw [wfJSON] at hwfv
                  exact wfList_mem hwfv _ (List.mem_cons_self _ _)
                exact ih x none hszx hwfx
            | obj g =>
              rw [san_obj_arrBranch_obj pn hobj harr hit]
              refine SanOK.arrS pn _ _ (hkeys2 _) (htype2 _)
                (getKey_setKey_self _ _ _) ?_
              have hszg : sizeOf (JSON.obj g) ≤ n := by omega
              exact ih (JSON.obj g) none hszg hwfv
            | null =>
              rw [san_obj_arrBranch_other pn hobj harr
                (fun xs hh => by
                  rw [hit] at hh
                  injection hh with hh
                  exact absurd hh (by simp))
                (fun g hh => by
                  rw [hit] at hh
                  injection hh with hh
                  exact absurd hh (by simp))]
              exact SanOK.arrS pn _ _ (hkeys2 _) (htype2 _)
                (getKey_setKey_self _ _ _) (sanOK_stringDefault none)
            | bool b =>
              rw [san_obj_arrBranch_other pn hobj harr
                (fun xs hh => by
                  rw [hit] at hh
                  injection hh with hh
                  exact absurd hh (by simp))
                (fun g hh => by
                  rw [hit] at hh
                  injection hh with hh
                  exact absurd hh (by simp))]
              exact SanOK.arrS pn _ _ (hkeys2 _) (htype2 _)
                (getKey_setKey_self _ _ _) (sanOK_stringDefault none)
            | num m =>
              rw [san_obj_arrBranch_other pn hobj harr
                (fun xs hh => by
                  rw [hit] at hh
                  injection hh with hh
                  exact absurd hh (by simp))
                (fun g hh => by
                  rw [hit] at hh
                  injection hh with hh
                  exact absurd hh (by simp))]
              exact SanOK.arrS pn _ _ (hkeys2 _) (htype2 _)
                (getKey_setKey_self _ _ _) (sanOK_stringDefault none)
            | str s2 =>
              rw [san_obj_arrBranch_other pn hobj harr
                (fun xs hh => by
                  rw [hit] at hh
                  injection hh with hh
                  exact absurd hh (by simp))
                (fun g hh => by
                  rw [hit] at hh
                  injection hh with hh
                  exact absurd hh (by simp))]
              exact SanOK.arrS pn _ _ (hkeys2 _) (htype2 _)
                (getKey_setKey_self _ _ _) (sanOK_stringDefault none)
        · rw [Bool.not_eq_true] at harr
          rw [san_obj_other pn hobj harr]
          refine SanOK.otherS pn _ tv (keys_schemaHead fs0 pn) htvget htvnn
            ?_ ?_ htvnum
          · intro hh
            rw [hh] at htv2
            rw [(isTypeTag_true_iff _ _).mpr htv2] at hobj
            exact absurd hobj (by decide)
          · intro hh
            rw [hh] at htv2
            rw [(isTypeTag_true_iff _ _).mpr htv2] at harr
            exact absurd harr (by decide)

theorem sanOK_shape {j : JSON} (pn : Option String) (hwf : wfJSON j = true) :
    SanOK pn (sanitizeSchema j pn) :=
  sanOK_shape_aux (sizeOf j) j pn (Nat.le_refl _) hwf

/-- A concrete schema exercising keyword pruning, the composite-branch
replacement, the heuristic number-to-integer coercion, property recursion
and the `required`/`additionalProperties` normalization. -/
def sampleSchema : JSON :=
  JSON.obj
    [("type", JSON.str "object"),
     ("title", JSON.str "pruned unknown keyword"),
     ("properties", JSON.obj
       [("user_id", JSON.obj [("type", JSON.str "number")]),
        ("tags", JSON.obj
          [("type", JSON.str "array"),
           ("items", JSON.obj
             [("anyOf", JSON.arr
               [JSON.obj [("type", JSON.str "string")],
                JSON.obj [("type", JSON.str "number")]])])]),
        ("note", JSON.obj [])]),
     ("required", JSON.arr [JSON.str "user_id", JSON.num 3]),
     ("additionalProperties", JSON.obj [])]

/-- Claim C5: schema sanitizer idempotence — for every input value `s`
(including non-object and malformed inputs) and every property-name hint,
`sanitizeSchema (sanitizeSchema s pn) pn = sanitizeSchema s pn`; the
top-level call of the source is the instance `pn = none`. The hypothesis
`wfJSON s` (no object repeats a key, recursively) is an artifact of the
list-based embedding of JS objects: every value a JavaScript program can
hold satisfies it, since JS objects cannot repeat keys. -/
theorem sanitizeSchema_idempotent (s : JSON) (pn : Option String)
    (h : wfJSON s = true) :
    sanitizeSchema (sanitizeSchema s pn) pn = sanitizeSchema s pn :=
  sanOK_fix (sanOK_shape pn h)

/-- Witness for claim C5: the concrete `sampleSchema` is well-formed and
sanitizing it twice equals sanitizing it once. -/
theorem sanitizeSchema_idempotent_witness :
    wfJSON sampleSchema = true ∧
    sanitizeSchema (sanitizeSchema sampleSchema none) none
      = sanitizeSchema sampleSchema none :=
  ⟨rfl, sanitizeSchema_idempotent sampleSchema none rfl⟩

/-! ## Incremental argument parsing (claim C2)

The extension property of the `JSON.parse` model: a successful parse is
stable under appending further input, provided a number literal does not
end the input (every other value form consumes a closing delimiter). It
yields prefix coherence — if a prefix of the final argument string already
parses as an object, it parses to the same object — which drives the
at-most-one-emission argument for the incremental scenario. -/

theorem parseStringBody_ext :
    ∀ (cs s r t : List Char), parseStringBody cs = some (s, r) →
    parseStringBody (cs ++ t) = some (s, r ++ t) := by
  intro cs
  induction cs using parseStringBody.induct
  next => intro s r t h; simp [parseStringBody] at h
  next rest' =>
    intro s r t h
    rw [parseStringBody.eq_def] at h ⊢
    simp at h ⊢
    exact ⟨h.1, by rw [h.2]⟩
  next hne => intro s r t h; simp [parseStringBody] at h
  next h1 h2 h3 h4 rest'' a b c2 d hd hc hb ha s0 r0 hsub hne ih =>
    intro s r t h
    rw [parseStringBody.eq_def] at h ⊢
    simp [ha, hb, hc, hd, hsub] at h
    simp [ha, hb, hc, hd, ih s0 r0 t hsub]
    exact ⟨h.1, by rw [h.2]⟩
  next h1 h2 h3 h4 rest'' a b c2 d hd hc hb ha hsub hne ih =>
    intro s r t h
    rw [parseStringBody.eq_def] at h
    simp [ha, hb, hc, hd, hsub] at h
  next h1 h2 h3 h4 rest'' hhex hne =>
    intro s r t h
    rw [parseStringBody.eq_def] at h
    rcases ha : hexVal h1 with _ | a
    · simp [ha] at h
    · rcases hb : hexVal h2 with _ | b
      · simp [ha, hb] at h
      · rcases hc : hexVal h3 with _ | c2
        · simp [ha, hb, hc] at h
        · rcases hd : hexVal h4 with _ | d
          · simp [ha, hb, hc, hd] at h
          · exact (hhex a b c2 d ha hb hc hd).elim
  next rest' hshort hne =>
    intro s r t h
    rw [parseStringBody.eq_def] at h
    match rest', hshort with
    | [], _ => simp at h
    | [x1], _ => simp at h
    | [x1, x2], _ => simp at h
    | [x1, x2, x3], _ => simp at h
    | x1 :: x2 :: x3 :: x4 :: rest2, hshort =>
      exact (hshort x1 x2 x3 x4 rest2 rfl).elim
  next e rest' heu ec hec s0 r0 hsub hne ih =>
    intro s r t h
    rw [parseStringBody.eq_def] at h ⊢
    simp [heu, hec, hsub] at h
    simp [heu, hec, ih s0 r0 t hsub]
    exact ⟨h.1, by rw [h.2]⟩
  next e rest' heu ec hec hsub hne ih =>
    intro s r t h
    rw [parseStringBody.eq_def] at h
    simp [heu, hec, hsub] at h
  next e rest' heu hec hne =>
    intro s r t h
    rw [parseStringBody.eq_def] at h
    simp [heu, hec] at h
  next e rest' hne1 hne2 s0 r0 hsub ih =>
    intro s r t h
    rw [parseStringBody.eq_def] at h ⊢
    simp [hne1, hne2, hsub] at h
    simp [hne1, hne2, ih s0 r0 t hsub]
    exact ⟨h.1, by rw [h.2]⟩
  next e rest' hne1 hne2 hsub ih =>
    intro s r t h
    rw [parseStringBody.eq_def] at h
    simp [hne1, hne2, hsub] at h

theorem dropWhile_append_cons {p : Char → Bool} {l : List Char} {c : Char}
    {rest : List Char} (t : List Char) (h : l.dropWhile p = c :: rest) :
    (l ++ t).dropWhile p = c :: (rest ++ t) := by
  induction l with
  | nil => simp at h
  | cons a l' ih =>
    rw [List.dropWhile_cons] at h
    rw [List.cons_append, List.dropWhile_cons]
    split at h
    · rename_i hp
      rw [if_pos hp]
      exact ih h
    · rename_i hp
      rw [if_neg hp]
      injection h with h1 h2
      rw [h1, h2]

theorem takeWhile_append_of_drop_cons {p : Char → Bool} {l : List Char}
    {c : Char} {rest : List Char} (t : List Char)
    (h : l.dropWhile p = c :: rest) :
    (l ++ t).takeWhile p = l.takeWhile p := by
  induction l with
  | nil => simp at h
  | cons a l' ih =>
    rw [List.dropWhile_cons] at h
    rw [List.cons_append, List.takeWhile_cons, List.takeWhile_cons]
    split at h
    · rename_i hp
      rw [if_pos hp, if_pos hp, ih h]
    · rename_i hp
      rw [if_neg hp, if_neg hp]

theorem skipWs_append {cs : List Char} {c : Char} {rest : List Char}
    (t : List Char) (h : skipWs cs = c :: rest) :
    skipWs (cs ++ t) = c :: (rest ++ t) :=
  dropWhile_append_cons t h

theorem parseNumberBody_head {c : Char} {rest : List Char} {v : Int}
    {r : List Char} (h : parseNumberBody (c :: rest) = some (v, r)) :
    c = '-' ∨ c.isDigit = true := by
  by_cases hc : c = '-'
  · exact Or.inl hc
  · right
    unfold parseNumberBody at h
    split at h
    · rename_i rest2 heq
      injection heq with h1 h2
      exact absurd h1 hc
    · dsimp only at h
      split at h
      · exact absurd h (by simp)
      · rename_i hds
        cases hd : c.isDigit with
        | true => rfl
        | false =>
          rw [List.takeWhile_cons, hd] at hds
          simp at hds

theorem parseNumberBody_ext {cs : List Char} {v : Int} {r : List Char}
    (t : List Char) (h : parseNumberBody cs = some (v, r)) (hr : r ≠ []) :
    parseNumberBody (cs ++ t) = some (v, r ++ t) := by
  obtain ⟨c0, r0, hr0⟩ : ∃ c0 r0, r = c0 :: r0 := by
    cases r with
    | nil => exact absurd rfl hr
    | cons a b => exact ⟨a, b, rfl⟩
  subst hr0
  unfold parseNumberBody at h
  split at h
  · rename_i rest
    dsimp only at h
    split at h
    · exact absurd h (by simp)
    · rename_i hds
      injection h with h12
      injection h12 with h1 h2
      rw [List.cons_append, parseNumberBody.eq_def]
      split
      · rename_i rest3 heq3
        injection heq3 with ha3 hb3
        subst hb3
        dsimp only
        rw [takeWhile_append_of_drop_cons t h2, dropWhile_append_cons t h2,
          if_neg hds, h1]
        rw [List.cons_append]
      · rename_i hne3
        exact (hne3 (rest ++ t) rfl).elim
  · rename_i hne
    dsimp only at h
    split at h
    · exact absurd h (by simp)
    · rename_i hds
      injection h with h12
      injection h12 with h1 h2
      cases cs with
      | nil => simp at h2
      | cons c1 cs2 =>
        rw [parseNumberBody.eq_def]
        split
        · rename_i rest3 heq
          rw [List.cons_append] at heq
          injection heq with ha hb
          exact (hne cs2 (by rw [ha])).elim
        · dsimp only
          rw [takeWhile_append_of_drop_cons t h2, dropWhile_append_cons t h2,
            if_neg hds, h1]
          rw [List.cons_append]

set_option maxHeartbeats 4000000 in
theorem parseValue_skipWs_nil {cs : List Char} (h : skipWs cs = []) (f : Nat) :
    parseValue f cs = none := by
  cases f with
  | zero => rfl
  | succ g =>
    rw [parseValue.eq_def]
    dsimp only
    rw [h]
    rfl

set_option maxHeartbeats 4000000 in
theorem parseElems_skipWs_nil {cs : List Char} (h : skipWs cs = [])
    (f : Nat) (acc : List JSON) : parseElems f acc cs = none := by
  cases f with
  | zero => rfl
  | succ g =>
    rw [parseElems.eq_def]
    dsimp only
    rw [parseValue_skipWs_nil h g]

set_option maxHeartbeats 4000000 in
theorem parser_ext : ∀ n : Nat,
    (∀ f cs v rem t, f ≤ n → parseValue f cs = some (v, rem) →
      (∀ m : Int, v = JSON.num m → rem ≠ []) →
      parseValue n (cs ++ t) = some (v, rem ++ t)) ∧
    (∀ f cs v rem t, f ≤ n → parseObjectBody f cs = some (v, rem) →
      parseObjectBody n (cs ++ t) = some (v, rem ++ t)) ∧
    (∀ f acc key cs v rem t, f ≤ n → parseMembers f acc key cs = some (v, rem) →
      parseMembers n acc key (cs ++ t) = some (v, rem ++ t)) ∧
    (∀ f cs v rem t, f ≤ n → parseArrayBody f cs = some (v, rem) →
      parseArrayBody n (cs ++ t) = some (v, rem ++ t)) ∧
    (∀ f acc cs v rem t, f ≤ n → parseElems f acc cs = some (v, rem) →
      parseElems n acc (cs ++ t) = some (v, rem ++ t)) := by
  intro n
  induction n with
  | zero =>
    refine ⟨?_, ?_, ?_, ?_, ?_⟩
    · intro f cs v rem t hf h _
      rw [Nat.le_zero.mp hf] at h
      rw [show parseValue 0 cs = none from rfl] at h
      simp at h
    · intro f cs v rem t hf h
      rw [Nat.le_zero.mp hf] at h
      rw [show parseObjectBody 0 cs = none from rfl] at h
      simp at h
    · intro f acc key cs v rem t hf h
      rw [Nat.le_zero.mp hf] at h
      rw [show parseMembers 0 acc key cs = none from rfl] at h
      simp at h
    · intro f cs v rem t hf h
      rw [Nat.le_zero.mp hf] at h
      rw [show parseArrayBody 0 cs = none from rfl] at h
      simp at h
    · intro f acc cs v rem t hf h
      rw [Nat.le_zero.mp hf] at h
      rw [show parseElems 0 acc cs = none from rfl] at h
      simp at h
  | succ n ihp =>
    obtain ⟨ihV, ihO, ihM, ihA, ihE⟩ := ihp
    refine ⟨?_, ?_, ?_, ?_, ?_⟩
    · -- parseValue
      intro f cs v rem t hf h hguard
      match f, hf with
      | 0, hf =>
        rw [show parseValue 0 cs = none from rfl] at h
        simp at h
      | g + 1, hf =>
        have hg : g ≤ n := Nat.le_of_succ_le_succ hf
        rw [parseValue.eq_def] at h
        dsimp only at h
        rw [parseValue.eq_def]
        dsimp only
        split at h
        · -- object
          rename_i rest heq
          rw [skipWs_append t heq]
          simp only []
          exact ihO g rest v rem t hg h
        · -- array
          rename_i rest heq
          rw [skipWs_append t heq]
          simp only []
          exact ihA g rest v rem t hg h
        · -- string
          rename_i rest heq
          rw [skipWs_append t heq]
          simp only []
          split at h
          · rename_i s2 r2 hps
            rw [parseStringBody_ext rest s2 r2 t hps]
            simp only []
            injection h with h12
            injection h12 with h1 h2
            rw [← h1, ← h2]
          · simp at h
        · -- true
          rename_i r2 heq
          rw [skipWs_append t heq]
          injection h with h12
          injection h12 with h1 h2
          rw [← h1, ← h2]
          rfl
        · -- false
          rename_i r2 heq
          rw [skipWs_append t heq]
          injection h with h12
          injection h12 with h1 h2
          rw [← h1, ← h2]
          rfl
        · -- null
          rename_i r2 heq
          rw [skipWs_append t heq]
          injection h with h12
          injection h12 with h1 h2
          rw [← h1, ← h2]
          rfl
        · -- number (catch-all)
          split at h
          · rename_i nn r hpn
            injection h with h12
            injection h12 with h1 h2
            subst h1
            subst h2
            have hrem : r ≠ [] := hguard nn rfl
            cases hsw0 : skipWs cs with
            | nil =>
              rw [hsw0, show parseNumberBody [] = none from rfl] at hpn
              simp at hpn
            | cons c rest2 =>
              rw [hsw0] at hpn
              have hhead := parseNumberBody_head hpn
              have hsw := skipWs_append t hsw0
              split
              · rename_i rest3 heq2
                rw [hsw] at heq2
                injection heq2 with hc _
                rw [hc] at hhead
                rcases hhead with hx | hx <;> exact absurd hx (by decide)
              · rename_i rest3 heq2
                rw [hsw] at heq2
                injection heq2 with hc _
                rw [hc] at hhead
                rcases hhead with hx | hx <;> exact absurd hx (by decide)
              · rename_i rest3 heq2
                rw [hsw] at heq2
                injection heq2 with hc _
                rw [hc] at hhead
                rcases hhead with hx | hx <;> exact absurd hx (by decide)
              · rename_i rest3 heq2
                rw [hsw] at heq2
                injection heq2 with hc _
                rw [hc] at hhead
                rcases hhead with hx | hx <;> exact absurd hx (by decide)
              · rename_i rest3 heq2
                rw [hsw] at heq2
                injection heq2 with hc _
                rw [hc] at hhead
                rcases hhead with hx | hx <;> exact absurd hx (by decide)
              · rename_i rest3 heq2
                rw [hsw] at heq2
                injection heq2 with hc _
                rw [hc] at hhead
                rcases hhead with hx | hx <;> exact absurd hx (by decide)
              · rw [hsw, ← List.cons_append,
                  parseNumberBody_ext t hpn hrem]
          · simp at h
    · -- parseObjectBody
      intro f cs v rem t hf h
      match f, hf with
      | 0, hf =>
        rw [show parseObjectBody 0 cs = none from rfl] at h
        simp at h
      | g + 1, hf =>
        have hg : g ≤ n := Nat.le_of_succ_le_succ hf
        rw [parseObjectBody.eq_def] at h
        dsimp only at h
        rw [parseObjectBody.eq_def]
        dsimp only
        split at h
        · rename_i rest heq
          rw [skipWs_append t heq]
          simp only []
          injection h with h12
          injection h12 with h1 h2
          rw [← h1, ← h2]
        · rename_i rest heq
          rw [skipWs_append t heq]
          simp only []
          split at h
          · rename_i k r1 hps
            rw [parseStringBody_ext rest k r1 t hps]
            simp only []
            exact ihM g [] (String.mk k) r1 v rem t hg h
          · simp at h
        · simp at h
    · -- parseMembers
      intro f acc key cs v rem t hf h
      match f, hf with
      | 0, hf =>
        rw [show parseMembers 0 acc key cs = none from rfl] at h
        simp at h
      | g + 1, hf =>
        have hg : g ≤ n := Nat.le_of_succ_le_succ hf
        rw [parseMembers.eq_def] at h
        dsimp only at h
        rw [parseMembers.eq_def]
        dsimp only
        split at h
        · rename_i rest heq
          rw [skipWs_append t heq]
          simp only []
          split at h
          · rename_i v1 r1 hpv
            split at h
            · rename_i r2 heq2
              have hguard1 : ∀ m : Int, v1 = JSON.num m → r1 ≠ [] := by
                intro m _ hr1
                rw [hr1] at heq2
                simp [skipWs] at heq2
              rw [ihV g rest v1 r1 t hg hpv hguard1]
              simp only []
              rw [skipWs_append t heq2]
              simp only []
              split at h
              · rename_i r3 heq3
                rw [skipWs_append t heq3]
                simp only []
                split at h
                · rename_i k2 r4 hps
                  rw [parseStringBody_ext r3 k2 r4 t hps]
                  simp only []
                  exact ihM g (setKey acc key v1) (String.mk k2) r4 v rem t hg h
                · simp at h
              · simp at h
            · rename_i r2 heq2
              have hguard1 : ∀ m : Int, v1 = JSON.num m → r1 ≠ [] := by
                intro m _ hr1
                rw [hr1] at heq2
                simp [skipWs] at heq2
              rw [ihV g rest v1 r1 t hg hpv hguard1]
              simp only []
              rw [skipWs_append t heq2]
              simp only []
              injection h with h12
              injection h12 with h1 h2
              rw [← h1, ← h2]
            · simp at h
          · simp at h
        · simp at h
    · -- parseArrayBody
      intro f cs v rem t hf h
      match f, hf with
      | 0, hf =>
        rw [show parseArrayBody 0 cs = none from rfl] at h
        simp at h
      | g + 1, hf =>
        have hg : g ≤ n := Nat.le_of_succ_le_succ hf
        rw [parseArrayBody.eq_def] at h
        dsimp only at h
        rw [parseArrayBody.eq_def]
        dsimp only
        split at h
        · rename_i rest heq
          rw [skipWs_append t heq]
          simp only []
          injection h with h12
          injection h12 with h1 h2
          rw [← h1, ← h2]
        · rename_i hne
          cases hsw0 : skipWs cs with
          | nil =>
            rw [parseElems_skipWs_nil hsw0 g []] at h
            simp at h
          | cons c rest2 =>
            have hsw := skipWs_append t hsw0
            split
            · rename_i rest3 heq2
              rw [hsw] at heq2
              injection heq2 with hc _
              rw [hc] at hsw0
              exact (hne rest2 hsw0).elim
            · exact ihE g [] cs v rem t hg h
    · -- parseElems
      intro f acc cs v rem t hf h
      match f, hf with
      | 0, hf =>
        rw [show parseElems 0 acc cs = none from rfl] at h
        simp at h
      | g + 1, hf =>
        have hg : g ≤ n := Nat.le_of_succ_le_succ hf
        rw [parseElems.eq_def] at h
        dsimp only at h
        rw [parseElems.eq_def]
        dsimp only
        split at h
        · rename_i v1 r1 hpv
          split at h
          · rename_i r2 heq2
            have hguard1 : ∀ m : Int, v1 = JSON.num m → r1 ≠ [] := by
              intro m _ hr1
              rw [hr1] at heq2
              simp [skipWs] at heq2
            rw [ihV g cs v1 r1 t hg hpv hguard1]
            simp only []
            rw [skipWs_append t heq2]
            simp only []
            exact ihE g (acc ++ [v1]) r2 v rem t hg h
          · rename_i r2 heq2
            have hguard1 : ∀ m : Int, v1 = JSON.num m → r1 ≠ [] := by
              intro m _ hr1
              rw [hr1] at heq2
              simp [skipWs] at heq2
            rw [ihV g cs v1 r1 t hg hpv hguard1]
            simp only []
            rw [skipWs_append t heq2]
            simp only []
            injection h with h12
            injection h12 with h1 h2
            rw [← h1, ← h2]
          · simp at h
        · simp at h

theorem sappend_assoc (a b c : String) : (a ++ b) ++ c = a ++ (b ++ c) :=
  String.append_assoc a b c

theorem sappend_empty (a : String) : a ++ "" = a := String.append_empty a

theorem sempty_append (a : String) : "" ++ a = a := String.empty_append a

theorem sdata_append (a b : String) : (a ++ b).data = a.data ++ b.data :=
  String.data_append a b

theorem slength_append (a b : String) : (a ++ b).length = a.length + b.length :=
  String.length_append a b

theorem jsonParse_prefix {p t : String} {fs : List (String × JSON)} {v : JSON}
    (hp : jsonParse p = some (JSON.obj fs)) (hpt : jsonParse (p ++ t) = some v) :
    v = JSON.obj fs := by
  unfold jsonParse at hp hpt
  split at hp
  · rename_i v0 rest heq
    split at hp
    · rename_i hws
      injection hp with hp0
      subst hp0
      have hfuel : 3 * (p.length + 1) ≤ 3 * ((p ++ t).length + 1) := by
        rw [slength_append]
        omega
      have hext := (parser_ext (3 * ((p ++ t).length + 1))).1
        (3 * (p.length + 1)) p.data (JSON.obj fs) rest t.data hfuel heq
        (fun m hm => absurd hm (by simp))
      rw [sdata_append, hext] at hpt
      dsimp only at hpt
      split at hpt
      · injection hpt with hv
        exact hv.symm
      · exact absurd hpt (by simp)
    · exact absurd hp (by simp)
  · exact absurd hp (by simp)

theorem tryParse_prefix {p t : String} {fs fs' : List (String × JSON)}
    (hp : tryParseJSONObject p = some fs)
    (hpt : tryParseJSONObject (p ++ t) = some fs') : fs' = fs := by
  unfold tryParseJSONObject at hp hpt
  split at hp
  · exact absurd hp (by simp)
  · split at hpt
    · exact absurd hpt (by simp)
    · split at hp
      · rename_i fs0 hjp
        injection hp with hp0
        split at hpt
        · rename_i fs1 hjpt
          injection hpt with hpt0
          have hco := jsonParse_prefix hjp hjpt
          injection hco with hco2
          rw [← hpt0, ← hp0, hco2]
        · exact absurd hpt (by simp)
      · exact absurd hp (by simp)

def sjoin : List String → String
  | [] => ""
  | c :: cs => c ++ sjoin cs

def bufSt (i : Nat) (tid name pre : String) : BufferState :=
  { buffers := [(i, { id := some tid, name := some name, args := pre })],
    completedIndices := [], emittedToolCallKeys := [],
    hasText := false, firstTool := true }

def doneSt (i : Nat) (key : String) : BufferState :=
  { buffers := [], completedIndices := [i], emittedToolCallKeys := [key],
    hasText := false, firstTool := true }

theorem tryEmit_bufSt (genId tid name pre : String) (i : Nat)
    (hname : name ≠ "") (fr : Bool) :
    tryEmit genId i fr (bufSt i tid name pre) =
    match tryParseJSONObject pre with
    | some fs => (doneSt i (name ++ ":" ++ stringify (JSON.obj fs)),
        some { callId := tid, name := name, parameters := fs })
    | none => (bufSt i tid name pre, none) := by
  cases htp : tryParseJSONObject pre with
  | none =>
    unfold tryEmit bufSt
    simp [mapGet, hname, htp]
  | some fs =>
    unfold tryEmit bufSt doneSt
    simp [mapGet, mapDelete, hname, htp]

theorem appendArgs_bufSt (i : Nat) (tid name pre c : String) :
    appendArgs i c (bufSt i tid name pre) = bufSt i tid name (pre ++ c) := by
  unfold appendArgs bufSt
  simp [mapGet, mapSet]

theorem tryEmit_doneSt (genId key : String) (i : Nat) (fr : Bool) :
    tryEmit genId i fr (doneSt i key) = (doneSt i key, none) := by
  unfold tryEmit doneSt
  rfl

theorem appendArgs_doneSt (i : Nat) (key c : String) :
    appendArgs i c (doneSt i key) = doneSt i key := by
  unfold appendArgs doneSt
  rfl

theorem feedChunks_done (genId : String) (i : Nat) (key : String) :
    ∀ chunks, feedChunks genId i (doneSt i key) chunks = (doneSt i key, []) := by
  intro chunks
  induction chunks with
  | nil => rfl
  | cons c cs ih =>
    rw [feedChunks]
    rw [appendArgs_doneSt, tryEmit_doneSt]
    dsimp only
    rw [ih]
    rfl

theorem feedChunks_bufSt (genId tid name : String) (hname : name ≠ "") (i : Nat) :
    ∀ (chunks : List String) (pre : String),
    (feedChunks genId i (bufSt i tid name pre) chunks =
      (bufSt i tid name (pre ++ sjoin chunks), [])) ∨
    (∃ (p t : String) (fs : List (String × JSON)),
      pre ++ sjoin chunks = p ++ t ∧ tryParseJSONObject p = some fs ∧
      feedChunks genId i (bufSt i tid name pre) chunks =
        (doneSt i (name ++ ":" ++ stringify (JSON.obj fs)),
         [{ callId := tid, name := name, parameters := fs }])) := by
  intro chunks
  induction chunks with
  | nil =>
    intro pre
    left
    rw [feedChunks, sjoin, sappend_empty]
  | cons c cs ih =>
    intro pre
    rw [feedChunks]
    rw [appendArgs_bufSt, tryEmit_bufSt genId tid name (pre ++ c) i hname false]
    cases htp : tryParseJSONObject (pre ++ c) with
    | none =>
      dsimp only
      rcases ih (pre ++ c) with h1 | ⟨p, t2, fs, hsplit, hparse, h1⟩
      · left
        rw [h1, sjoin, ← sappend_assoc]
        rfl
      · right
        refine ⟨p, t2, fs, ?_, hparse, ?_⟩
        · rw [sjoin, ← sappend_assoc]
          exact hsplit
        · rw [h1]
          rfl
    | some fs =>
      dsimp only
      right
      refine ⟨pre ++ c, sjoin cs, fs, ?_, htp, ?_⟩
      · rw [sjoin, ← sappend_assoc]
      · rw [feedChunks_done]
        rfl

/-- Claim C2 (amended): incremental parse — for every tool name other than
the empty string, every argument string whose `tryParseJSONObject` parse
yields fields `fs` (in particular, every serialization of a JSON object),
and every partition of that string into chunks fed as successive
`appendArgs` calls after `startToolCall` on a fresh stream, with `tryEmit`
attempted after each chunk and a forced attempt at the end, exactly one
ToolCall part is emitted for the index — carrying the buffered
`toolUseId`, the name, and the parsed fields `fs` — regardless of the
split points. The original claim omits the name proviso: under the empty
tool name the `if (!buf.name)` guard suppresses every emission. -/
theorem incremental_parse_unique (genId tid name : String) (i : Nat)
    (chunks : List String) (fs : List (String × JSON)) (hname : name ≠ "")
    (hparse : tryParseJSONObject (sjoin chunks) = some fs) :
    runIncremental genId tid name i chunks =
      [{ callId := tid, name := name, parameters := fs }] := by
  unfold runIncremental
  dsimp only
  have hst0 : startToolCall i tid name resetState = bufSt i tid name "" := rfl
  rw [hst0]
  rcases feedChunks_bufSt genId tid name hname i chunks "" with h1 |
    ⟨p, t2, fs2, hsplit, hp2, h1⟩
  · rw [h1]
    dsimp only
    rw [sempty_append] at h1 ⊢
    rw [tryEmit_bufSt genId tid name (sjoin chunks) i hname true, hparse]
    rfl
  · rw [h1]
    dsimp only
    rw [tryEmit_doneSt]
    rw [sempty_append] at hsplit
    have hfs2 : fs = fs2 := by
      rw [hsplit] at hparse
      exact tryParse_prefix hp2 hparse
    rw [hfs2]
    rfl


/-- Witness for claim C2: a concrete two-chunk split of the serialized
object with field `q` mapped to `"x"`, under the name `search`, emits
exactly the one expected part. -/
theorem incremental_parse_unique_witness :
    (("search" : String) ≠ "" ∧
      tryParseJSONObject (sjoin ["\x7b\"q\":", "\"x\"\x7d"]) =
        some [("q", JSON.str "x")]) ∧
    runIncremental "gen" "c1" "search" 0 ["\x7b\"q\":", "\"x\"\x7d"] =
      [{ callId := "c1", name := "search", parameters := [("q", JSON.str "x")] }] :=
  ⟨⟨by decide, by rfl⟩,
   incremental_parse_unique "gen" "c1" "search" 0 ["\x7b\"q\":", "\"x\"\x7d"]
     [("q", JSON.str "x")] (by decide) (by rfl)⟩

/-- Counterexample to claim C2 as stated: registering the index under the
EMPTY tool name and feeding a complete serialized object emits zero parts
rather than one — `tryEmit` treats the empty name as falsy and returns
without emitting, even on the forced final attempt. -/
theorem incremental_parse_counterexample :
    tryParseJSONObject (sjoin ["\x7b\x7d"]) = some [] ∧
    runIncremental "gen" "t1" "" 0 ["\x7b\x7d"] = [] :=
  ⟨rfl, rfl⟩

end BedrockChat
